import Mathlib

/-!
Verification of the hybrid two-stage flow-shop scheduling engine and its
genetic optimizer, as a shallow embedding of the TypeScript sources
(`simulationCore.ts`, `PriorityQueue.ts`, `gaWorker.ts`).

Times are embedded as integers: the source only ever adds, subtracts,
compares and takes maxima of times, so the arithmetic is exact over ℤ.
The quantities the source obtains by division (average tardiness,
utilization, fitness, GA rates and probabilities) are rationals.  Ids and
families are naturals; JavaScript `null` becomes `Option`.
-/

set_option linter.unusedVariables false

/-! ## Data model (types/index.ts) -/

structure Job where
  id : Nat
  dueDate : ℤ
  family : Nat
  t_smd : ℤ
  t_aoi : ℤ
  deriving Repr, DecidableEq

structure Machine where
  id : Nat
  stage : Nat
  currentSetupKit : Option Nat
  availableAt : ℤ
  currentJob : Option Nat
  deriving Repr, DecidableEq

structure SetupKit where
  family : Nat
  currentMachine : Option Nat
  inTransit : Bool
  availableAt : ℤ
  deriving Repr, DecidableEq

inductive SetupType
  | none
  | minor
  | major
  | aoi
  deriving Repr, DecidableEq

structure ScheduledJob where
  jobId : Nat
  machineId : Nat
  stage : Nat
  startTime : ℤ
  endTime : ℤ
  setupTime : ℤ
  setupType : SetupType
  setupStartTime : Option ℤ
  processingTime : ℤ
  family : Nat
  isLate : Bool
  tardiness : ℤ
  deriving Repr, DecidableEq

/-- `Schedule` from types/index.ts; the nested `utilization` record is
flattened into the two fields `utilizationStage1` / `utilizationStage2`. -/
structure Schedule where
  jobs : List ScheduledJob
  makespan : ℤ
  totalTardiness : ℤ
  averageTardiness : ℚ
  setupCount : Nat
  minorSetupCount : Nat
  majorSetupCount : Nat
  aoiSetupCount : Nat
  utilizationStage1 : ℚ
  utilizationStage2 : ℚ
  deriving Repr, DecidableEq

inductive EventType
  | SETUP_START
  | SETUP_END
  | JOB_START
  | STAGE1_COMPLETE
  | SIMULATION_END
  deriving Repr, DecidableEq

/-- The fixed event-type priority used by `extractEventTimeline`
(simulationCore.ts lines 97-103). -/
def eventTypePriority : EventType → Nat
  | EventType.SETUP_START => 1
  | EventType.SETUP_END => 2
  | EventType.JOB_START => 3
  | EventType.STAGE1_COMPLETE => 4
  | EventType.SIMULATION_END => 5

structure SimEvent where
  type : EventType
  time : ℤ
  jobId : Nat
  machineId : Nat
  stage : Nat
  deriving Repr, DecidableEq

/-! ## PriorityQueue (utils/PriorityQueue.ts)

`push` appends the item and re-sorts the array by `time` ascending with
JavaScript's stable `Array.prototype.sort`; on an already sorted array that
is the same as inserting the new item after every item whose time is `≤`
its own.  `pop` shifts the head. -/

def pqPush : List SimEvent → SimEvent → List SimEvent
  | [], e => [e]
  | x :: xs, e => if e.time < x.time then e :: x :: xs else x :: pqPush xs e

def pqPop (q : List SimEvent) : Option SimEvent :=
  q.head?

def pqIsEmpty (q : List SimEvent) : Bool :=
  q.isEmpty

/-- The queue obtained from a sequence of pushes starting empty. -/
def pqOfPushes (es : List SimEvent) : List SimEvent :=
  es.foldl pqPush []

/-! ## Simulation engine (simulationCore.ts) -/

def SETUP_TIME_SMD_MINOR : ℤ := 20
def SETUP_TIME_SMD_MAJOR : ℤ := 65
def SETUP_TIME_AOI : ℤ := 25
def STAGE1_MACHINES : Nat := 4
def STAGE2_MACHINES : Nat := 5

structure SimState where
  currentTime : ℤ
  machines : List Machine
  setupKits : List SetupKit
  stage1Queue : List Nat
  stage2Queue : List Nat
  completedJobs : List ScheduledJob
  deriving Repr, DecidableEq

/-- `new Map(jobs.map(j => [j.id, j])).get(id)`: with duplicate ids the last
entry wins, hence the lookup scans the reversed list. -/
def jobsMapGet (jobs : List Job) (jobId : Nat) : Option Job :=
  jobs.reverse.find? (fun j => j.id == jobId)

/-- `state.setupKits.get(family)`; families are unique keys. -/
def kitGet (kits : List SetupKit) (family : Nat) : Option SetupKit :=
  kits.find? (fun k => k.family == family)

/-- One setup kit per distinct family, in first-occurrence order
(JavaScript `Set` iteration order). -/
def mkSetupKits (jobs : List Job) : List SetupKit :=
  jobs.foldl
    (fun acc j =>
      if acc.any (fun k => k.family == j.family) then acc
      else acc ++ [{ family := j.family, currentMachine := Option.none,
                     inTransit := false, availableAt := 0 }])
    []

def initMachines : List Machine :=
  ((List.range STAGE1_MACHINES).map (fun i =>
    { id := i + 1, stage := 1, currentSetupKit := Option.none,
      availableAt := 0, currentJob := Option.none })) ++
  ((List.range STAGE2_MACHINES).map (fun i =>
    { id := STAGE1_MACHINES + i + 1, stage := 2, currentSetupKit := Option.none,
      availableAt := 0, currentJob := Option.none }))

/-- `initializeState` from simulationCore.ts (shortened name). -/
def initState (jobs : List Job) (jobSequence : List Nat) : SimState :=
  { currentTime := 0
    machines := initMachines
    setupKits := mkSetupKits jobs
    stage1Queue := jobSequence
    stage2Queue := []
    completedJobs := [] }

/-- In-place mutation of the (unique) machine object with this id. -/
def updateMachineById (machines : List Machine) (mid : Nat) (f : Machine → Machine) :
    List Machine :=
  machines.map (fun m => if m.id == mid then f m else m)

/-- In-place mutation of the (unique) kit object for this family. -/
def updateKitByFamily (kits : List SetupKit) (family : Nat) (f : SetupKit → SetupKit) :
    List SetupKit :=
  kits.map (fun k => if k.family == family then f k else k)

/-- One candidate machine considered by the stage-1 selection loop: the best
candidate so far is replaced iff the new job start time is strictly
smaller. -/
def stage1Consider (currentTime kitAvail : ℤ) (best : Option (Machine × ℤ × ℤ))
    (m : Machine) (setupTime : ℤ) : Option (Machine × ℤ × ℤ) :=
  let setupStartTime := max (max currentTime m.availableAt) kitAvail
  let jobStartTime := setupStartTime + setupTime
  match best with
  | Option.none => some (m, jobStartTime, setupTime)
  | some (bm, bst, bs) =>
    if jobStartTime < bst then some (m, jobStartTime, setupTime) else some (bm, bst, bs)

/-- The machine-selection loop of `tryAssignStage1Jobs` (simulationCore.ts
lines 284-311): minor setup when the kit is mounted on the machine, skip
when the kit sits on a different machine, major setup otherwise. -/
def findBestStage1 (currentTime : ℤ) (kit : SetupKit) (family : Nat)
    (stage1Machines : List Machine) : Option (Machine × ℤ × ℤ) :=
  stage1Machines.foldl
    (fun best m =>
      if m.currentSetupKit == some family then
        stage1Consider currentTime kit.availableAt best m SETUP_TIME_SMD_MINOR
      else if kit.currentMachine != Option.none && kit.currentMachine != some m.id then
        best
      else
        stage1Consider currentTime kit.availableAt best m SETUP_TIME_SMD_MAJOR)
    Option.none

/-- The state/queue updates performed once a stage-1 machine has been chosen
(simulationCore.ts lines 313-366).  `rest` is the queue after the `shift`. -/
def assignStage1 (state : SimState) (eventQueue : List SimEvent) (rest : List Nat)
    (jobId : Nat) (job : Job) (kit : SetupKit) (bestMachine : Machine)
    (bestSetupTime : ℤ) : SimState × List SimEvent :=
  let setupStartTime := max (max state.currentTime bestMachine.availableAt) kit.availableAt
  let jobStartTime := setupStartTime + bestSetupTime
  let jobEndTime := jobStartTime + job.t_smd
  let machines1 := updateMachineById state.machines bestMachine.id
    (fun m => { m with currentJob := some jobId, availableAt := jobEndTime })
  let machines2 :=
    match kit.currentMachine with
    | some oldId =>
      if oldId != bestMachine.id then
        updateMachineById machines1 oldId (fun m => { m with currentSetupKit := Option.none })
      else machines1
    | Option.none => machines1
  let machines3 := updateMachineById machines2 bestMachine.id
    (fun m => { m with currentSetupKit := some job.family })
  let kits1 := updateKitByFamily state.setupKits job.family
    (fun k => { k with currentMachine := some bestMachine.id, availableAt := jobEndTime })
  let eventQueue1 := pqPush eventQueue
    { type := EventType.STAGE1_COMPLETE, time := jobEndTime, jobId := jobId,
      machineId := bestMachine.id, stage := 1 }
  let record : ScheduledJob :=
    { jobId := jobId, machineId := bestMachine.id, stage := 1,
      startTime := jobStartTime, endTime := jobEndTime,
      setupTime := bestSetupTime,
      setupType := if bestSetupTime == SETUP_TIME_SMD_MAJOR then SetupType.major
                   else SetupType.minor,
      setupStartTime := some setupStartTime, processingTime := job.t_smd,
      family := job.family, isLate := false, tardiness := 0 }
  ({ state with
      machines := machines3, setupKits := kits1, stage1Queue := rest,
      completedJobs := state.completedJobs ++ [record] }, eventQueue1)

/-- The while-loop of `tryAssignStage1Jobs`, structural on the queue.  A head
with no matching job or kit leaves the loop (in the source, `continue` with
`assigned = false` terminates the `while`), as does finding no feasible
machine. -/
def tryAssignStage1Loop (jobs : List Job) :
    List Nat → SimState → List SimEvent → SimState × List SimEvent
  | [], state, eventQueue => (state, eventQueue)
  | jobId :: rest, state, eventQueue =>
    match jobsMapGet jobs jobId with
    | Option.none => (state, eventQueue)
    | some job =>
      match kitGet state.setupKits job.family with
      | Option.none => (state, eventQueue)
      | some kit =>
        match findBestStage1 state.currentTime kit job.family
            (state.machines.filter (fun m => m.stage == 1)) with
        | Option.none => (state, eventQueue)
        | some (bestMachine, _bestStart, bestSetupTime) =>
          let p := assignStage1 state eventQueue rest jobId job kit bestMachine bestSetupTime
          tryAssignStage1Loop jobs rest p.1 p.2

def tryAssignStage1Jobs (jobs : List Job) (state : SimState)
    (eventQueue : List SimEvent) : SimState × List SimEvent :=
  tryAssignStage1Loop jobs state.stage1Queue state eventQueue

/-- `stage2Machines.reduce((best, current) => current.availableAt < best.availableAt
? current : best)`: the first machine with the minimal `availableAt`. -/
def reduceMinAvail : List Machine → Option Machine
  | [] => Option.none
  | m :: ms =>
    some (ms.foldl (fun best c => if c.availableAt < best.availableAt then c else best) m)

/-- The state/queue updates of one stage-2 assignment
(simulationCore.ts lines 396-433). -/
def assignStage2 (state : SimState) (eventQueue : List SimEvent) (rest : List Nat)
    (jobId : Nat) (job : Job) (stage1Job : ScheduledJob) (bestMachine : Machine) :
    SimState × List SimEvent :=
  let setupStartTime := max (max stage1Job.endTime bestMachine.availableAt) state.currentTime
  let jobStartTime := setupStartTime + SETUP_TIME_AOI
  let jobEndTime := jobStartTime + job.t_aoi
  let machines1 := updateMachineById state.machines bestMachine.id
    (fun m => { m with currentJob := some jobId, availableAt := jobEndTime })
  let eventQueue1 := pqPush eventQueue
    { type := EventType.SIMULATION_END, time := jobEndTime, jobId := jobId,
      machineId := bestMachine.id, stage := 2 }
  let tardiness := max 0 (jobEndTime - job.dueDate)
  let record : ScheduledJob :=
    { jobId := jobId, machineId := bestMachine.id, stage := 2,
      startTime := jobStartTime, endTime := jobEndTime,
      setupTime := SETUP_TIME_AOI, setupType := SetupType.aoi,
      setupStartTime := some setupStartTime, processingTime := job.t_aoi,
      family := job.family, isLate := decide (tardiness > 0), tardiness := tardiness }
  ({ state with
      machines := machines1, stage2Queue := rest,
      completedJobs := state.completedJobs ++ [record] }, eventQueue1)

/-- The while-loop of `tryAssignStage2Jobs`, structural on the queue. -/
def tryAssignStage2Loop (jobs : List Job) :
    List Nat → SimState → List SimEvent → SimState × List SimEvent
  | [], state, eventQueue => (state, eventQueue)
  | jobId :: rest, state, eventQueue =>
    match jobsMapGet jobs jobId with
    | Option.none => (state, eventQueue)
    | some job =>
      match reduceMinAvail (state.machines.filter (fun m => m.stage == 2)) with
      | Option.none => (state, eventQueue)
      | some bestMachine =>
        match state.completedJobs.find? (fun sj => sj.jobId == jobId && sj.stage == 1) with
        | Option.none => (state, eventQueue)
        | some stage1Job =>
          let p := assignStage2 state eventQueue rest jobId job stage1Job bestMachine
          tryAssignStage2Loop jobs rest p.1 p.2

def tryAssignStage2Jobs (jobs : List Job) (state : SimState)
    (eventQueue : List SimEvent) : SimState × List SimEvent :=
  tryAssignStage2Loop jobs state.stage2Queue state eventQueue

/-- `processEvent` from simulationCore.ts. -/
def processEvent (jobs : List Job) (event : SimEvent) (state : SimState)
    (eventQueue : List SimEvent) : SimState × List SimEvent :=
  let state1 := { state with currentTime := event.time }
  match event.type with
  | EventType.STAGE1_COMPLETE =>
    let machines := updateMachineById state1.machines event.machineId
      (fun m => { m with currentJob := Option.none })
    let state2 := { state1 with
      machines := machines,
      stage2Queue := state1.stage2Queue ++ [event.jobId] }
    tryAssignStage2Jobs jobs state2 eventQueue
  | EventType.SIMULATION_END =>
    let machines := updateMachineById state1.machines event.machineId
      (fun m => { m with currentJob := Option.none })
    ({ state1 with machines := machines }, eventQueue)
  | _ => (state1, eventQueue)

/-- The main event loop with the `maxIterations = 10000` cap as fuel. -/
def simLoop (jobs : List Job) : Nat → SimState → List SimEvent → SimState
  | 0, state, _ => state
  | fuel + 1, state, eventQueue =>
    match pqPop eventQueue with
    | Option.none => state
    | some event =>
      let p := processEvent jobs event state eventQueue.tail
      let q := tryAssignStage1Jobs jobs p.1 p.2
      simLoop jobs fuel q.1 q.2

def maxIterations : Nat := 10000

/-- `runSimulation` up to (but not including) building the final `Schedule`. -/
def runSimulationState (jobs : List Job) (jobSequence : List Nat) : SimState :=
  let state0 := initState jobs jobSequence
  let p := tryAssignStage1Jobs jobs state0 []
  simLoop jobs maxIterations p.1 p.2

/-- The schedule construction at the end of `runSimulation`
(simulationCore.ts lines 496-533).  `Math.max(...endTimes, 0)` is the fold
of `max` with base `0`. -/
def buildSchedule (state : SimState) : Schedule :=
  let makespan := (state.completedJobs.map (fun sj => sj.endTime)).foldr max 0
  let stage2Jobs := state.completedJobs.filter (fun sj => sj.stage == 2)
  let totalTardiness : ℤ := (stage2Jobs.map (fun sj => sj.tardiness)).foldr (· + ·) 0
  let averageTardiness :=
    if stage2Jobs.length > 0 then (totalTardiness : ℚ) / (stage2Jobs.length : ℚ) else 0
  let setupCount := (state.completedJobs.filter (fun sj => sj.setupTime > 0)).length
  let minorSetupCount :=
    (state.completedJobs.filter (fun sj => sj.setupType == SetupType.minor)).length
  let majorSetupCount :=
    (state.completedJobs.filter (fun sj => sj.setupType == SetupType.major)).length
  let aoiSetupCount :=
    (state.completedJobs.filter (fun sj => sj.setupType == SetupType.aoi)).length
  let stage1TotalProcessing : ℤ :=
    ((state.completedJobs.filter (fun sj => sj.stage == 1)).map
      (fun sj => sj.processingTime + sj.setupTime)).foldr (· + ·) 0
  let stage2TotalProcessing : ℤ :=
    ((state.completedJobs.filter (fun sj => sj.stage == 2)).map
      (fun sj => sj.processingTime + sj.setupTime)).foldr (· + ·) 0
  { jobs := state.completedJobs
    makespan := makespan
    totalTardiness := totalTardiness
    averageTardiness := averageTardiness
    setupCount := setupCount
    minorSetupCount := minorSetupCount
    majorSetupCount := majorSetupCount
    aoiSetupCount := aoiSetupCount
    utilizationStage1 :=
      if makespan > 0 then
        (stage1TotalProcessing : ℚ) / ((makespan : ℚ) * (STAGE1_MACHINES : ℚ)) else 0
    utilizationStage2 :=
      if makespan > 0 then
        (stage2TotalProcessing : ℚ) / ((makespan : ℚ) * (STAGE2_MACHINES : ℚ)) else 0 }

/-- `runSimulation(jobs, jobSequence) -> Schedule`. -/
def runSimulation (jobs : List Job) (jobSequence : List Nat) : Schedule :=
  buildSchedule (runSimulationState jobs jobSequence)

/-! ## Genetic optimizer (workers/gaWorker.ts)

`Math.random()` is modelled by a deterministic stream `g : Nat → ℚ` of draws
in `[0, 1)` together with a counter for the next draw; every function that
draws returns the advanced counter.  `performance.now()` timing and the
worker message plumbing are outside the embedding. -/

structure Individual where
  chromosome : List Nat
  fitness : ℚ
  makespan : ℤ
  totalTardiness : ℤ
  deriving Repr, DecidableEq

instance : Inhabited Individual :=
  ⟨{ chromosome := [], fitness := 0, makespan := 0, totalTardiness := 0 }⟩

/-- `GAConfig`; `mutationMethod : 'swap' | 'insert'` becomes the Boolean
`mutationMethodInsert`. -/
structure GAConfig where
  populationSize : Nat
  generations : Nat
  tournamentSize : Nat
  crossoverRate : ℚ
  mutationRate : ℚ
  mutationMethodInsert : Bool
  elitismRate : ℚ
  tardinessWeight : ℚ
  useAdaptive : Bool
  adaptiveWindow : Nat
  deriving Repr, DecidableEq

def MAKESPAN_SCALE : ℚ := 1
def TARDINESS_SCALE : ℚ := 1

/-- `evaluateFitness` from gaWorker.ts: one simulation run, then the
weighted average of (scaled) makespan and total tardiness. -/
def evaluateFitness (jobs : List Job) (sequence : List Nat) (weight : ℚ) :
    ℚ × ℤ × ℤ :=
  let schedule := runSimulation jobs sequence
  let makespanWeight := 1 - weight
  let tardinessWeight := weight
  let normalizedMakespan := (schedule.makespan : ℚ) / MAKESPAN_SCALE
  let normalizedTardiness := (schedule.totalTardiness : ℚ) / TARDINESS_SCALE
  (makespanWeight * normalizedMakespan + tardinessWeight * normalizedTardiness,
   schedule.makespan, schedule.totalTardiness)

def mkIndividual (jobs : List Job) (weight : ℚ) (chromosome : List Nat) : Individual :=
  let e := evaluateFitness jobs chromosome weight
  { chromosome := chromosome, fitness := e.1, makespan := e.2.1, totalTardiness := e.2.2 }

/-- `Math.floor(g n * size)`: an index in `[0, size)` whenever `g n ∈ [0, 1)`. -/
def randIndex (g : Nat → ℚ) (n size : Nat) : Nat :=
  Int.toNat ⌊g n * (size : ℚ)⌋

/-- `[c[i], c[j]] = [c[j], c[i]]`: both reads happen before both writes. -/
def listSwap (l : List Nat) (i j : Nat) : List Nat :=
  let vi := l.getD i 0
  let vj := l.getD j 0
  (l.set i vj).set j vi

/-- The Fisher-Yates loop of `createInitialPopulation`: the argument of
`fisherYatesAux` is the loop variable `i` (counting down to 1, exiting at 0),
`n` the next random draw. -/
def fisherYatesAux (g : Nat → ℚ) : Nat → Nat → List Nat → List Nat × Nat
  | 0, n, c => (c, n)
  | i + 1, n, c =>
    let j := randIndex g n (i + 2)
    fisherYatesAux g i (n + 1) (listSwap c (i + 1) j)

def fisherYates (g : Nat → ℚ) (n : Nat) (c : List Nat) : List Nat × Nat :=
  fisherYatesAux g (c.length - 1) n c

/-- The `while (population.length < populationSize)` loop, with the number of
missing individuals as fuel. -/
def createInitialPopulationAux (jobs : List Job) (base : List Nat) (weight : ℚ)
    (g : Nat → ℚ) : Nat → Nat → List Individual → List Individual × Nat
  | 0, n, pop => (pop, n)
  | k + 1, n, pop =>
    let p := fisherYates g n base
    createInitialPopulationAux jobs base weight g k p.2
      (pop ++ [mkIndividual jobs weight p.1])

def createInitialPopulation (jobs : List Job) (populationSize : Nat) (weight : ℚ)
    (g : Nat → ℚ) (n : Nat) (initialSequence : Option (List Nat)) :
    List Individual × Nat :=
  let pop0 :=
    match initialSequence with
    | some s => [mkIndividual jobs weight s]
    | Option.none => []
  createInitialPopulationAux jobs (jobs.map (fun j => j.id)) weight g
    (populationSize - pop0.length) n pop0

/-- `tournament.reduce((best, current) => current.fitness < best.fitness ?
current : best)`: the first individual with minimal fitness. -/
def reduceMinFitness : List Individual → Option Individual
  | [] => Option.none
  | x :: xs =>
    some (xs.foldl (fun best c => if c.fitness < best.fitness then c else best) x)

/-- The pick loop of `tournamentSelection`: `k` random members (with
repetition) of `population`. -/
def tournamentPicks (population : List Individual) (g : Nat → ℚ) :
    Nat → Nat → List Individual × Nat
  | 0, n => ([], n)
  | k + 1, n =>
    let x := population.getD (randIndex g n population.length) default
    let p := tournamentPicks population g k (n + 1)
    (x :: p.1, p.2)

def tournamentSelection (population : List Individual) (tournamentSize : Nat)
    (g : Nat → ℚ) (n : Nat) : Individual × Nat :=
  let p := tournamentPicks population g tournamentSize n
  ((reduceMinFitness p.1).getD default, p.2)

/-- `Array(size).fill(-1)` with the segment `[start, end]` copied from
parent 1; the `-1` sentinel becomes `Option.none`. -/
def oxChild0 (p1 : List Nat) (s e : Nat) : List (Option Nat) :=
  (List.range p1.length).map
    (fun i => if s ≤ i ∧ i ≤ e then some (p1.getD i 0) else Option.none)

/-- The `while (child.includes(-1))` fill loop of `orderCrossover`, with the
values of parent 2 to scan (in cyclic order from `end+1`) as the list
argument.  When both parents are permutations of the same ids, one full
cyclic scan of parent 2 fills every hole, which is why `orderCrossover`
passes exactly `size` scan steps. -/
def oxFill (size : Nat) : List Nat → Nat → List (Option Nat) → List (Option Nat)
  | [], _, child => child
  | v :: scan, childIndex, child =>
    if child.any (fun o => o.isNone) then
      if child.contains (some v) then
        oxFill size scan childIndex child
      else
        oxFill size scan ((childIndex + 1) % size) (child.set childIndex (some v))
    else child

/-- `orderCrossover(parent1, parent2)` with the two random cut indices
(`start = ⌊r·size⌋`, `end = ⌊r·(size−start)⌋ + start` in the source) passed
explicitly. -/
def orderCrossover (p1 p2 : List Nat) (s e : Nat) : List Nat :=
  let size := p1.length
  let child0 := oxChild0 p1 s e
  let scan := (p2.rotate ((e + 1) % size)).take size
  (oxFill size scan ((e + 1) % size) child0).map (fun o => o.getD 0)

def orderCrossoverR (g : Nat → ℚ) (n : Nat) (p1 p2 : List Nat) : List Nat × Nat :=
  let size := p1.length
  let s := randIndex g n size
  let e := randIndex g (n + 1) (size - s) + s
  (orderCrossover p1 p2 s e, n + 2)

/-- `swapMutation` with the two random positions passed explicitly. -/
def swapMutation (chromosome : List Nat) (i j : Nat) : List Nat :=
  listSwap chromosome i j

def swapMutationR (g : Nat → ℚ) (n : Nat) (c : List Nat) : List Nat × Nat :=
  (swapMutation c (randIndex g n c.length) (randIndex g (n + 1) c.length), n + 2)

/-- `insertMutation`: `splice(i, 1)` removes the gene, `splice(j, 0, gene)`
reinserts it. -/
def insertMutation (chromosome : List Nat) (i j : Nat) : List Nat :=
  let gene := chromosome.getD i 0
  (chromosome.eraseIdx i).insertIdx j gene

def insertMutationR (g : Nat → ℚ) (n : Nat) (c : List Nat) : List Nat × Nat :=
  (insertMutation c (randIndex g n c.length) (randIndex g (n + 1) c.length), n + 2)

/-- `recent[i] < recent[i-1] * 0.999` counted over consecutive pairs. -/
def countImprovements : List ℚ → Nat
  | a :: b :: rest =>
    (if b < a * (999 / 1000) then 1 else 0) + countImprovements (b :: rest)
  | _ => 0

/-- `detectStagnation(fitnessHistory, windowSize)`. -/
def detectStagnation (fitnessHistory : List ℚ) (windowSize : Nat) : ℚ :=
  if fitnessHistory.length < windowSize then 0
  else
    let recent :=
      if windowSize = 0 then fitnessHistory
      else fitnessHistory.drop (fitnessHistory.length - windowSize)
    1 - (countImprovements recent : ℚ) / ((windowSize : ℚ) - 1)

/-- `adaptMutationRate`. -/
def adaptMutationRate (baseMutationRate diversity stagnation progressRatio : ℚ) : ℚ :=
  let diversityFactor := 3 / 2 - diversity
  let stagnationFactor := 1 + (1 / 2) * stagnation
  let progressFactor := 1 - (3 / 10) * progressRatio
  max (1 / 100) (min (1 / 2)
    (baseMutationRate * diversityFactor * stagnationFactor * progressFactor))

/-- Stable ascending insertion by fitness (`population.sort((a, b) =>
a.fitness - b.fitness)`, a stable sort in JavaScript). -/
def popInsert : List Individual → Individual → List Individual
  | [], x => [x]
  | y :: ys, x => if x.fitness < y.fitness then x :: y :: ys else y :: popInsert ys x

def sortPop (population : List Individual) : List Individual :=
  population.foldl popInsert []

/-- `Math.max(1, Math.floor(config.populationSize * config.elitismRate))`
(gaWorker.ts line 299). -/
def eliteCount (populationSize : Nat) (elitismRate : ℚ) : Nat :=
  max 1 (Int.toNat ⌊(populationSize : ℚ) * elitismRate⌋)

/-- One offspring of the `while (newPopulation.length < populationSize)`
loop: two tournament parents, order crossover with probability
`crossoverRate`, one mutation with probability `adaptedMutationRate`, then a
fitness evaluation. -/
def mkOffspring (jobs : List Job) (cfg : GAConfig) (adaptedMutationRate : ℚ)
    (population : List Individual) (g : Nat → ℚ) (n : Nat) : Individual × Nat :=
  let p1 := tournamentSelection population cfg.tournamentSize g n
  let p2 := tournamentSelection population cfg.tournamentSize g p1.2
  let off0 :=
    if g p2.2 < cfg.crossoverRate then
      orderCrossoverR g (p2.2 + 1) p1.1.chromosome p2.1.chromosome
    else (p1.1.chromosome, p2.2 + 1)
  let off1 :=
    if g off0.2 < adaptedMutationRate then
      if cfg.mutationMethodInsert then insertMutationR g (off0.2 + 1) off0.1
      else swapMutationR g (off0.2 + 1) off0.1
    else (off0.1, off0.2 + 1)
  (mkIndividual jobs cfg.tardinessWeight off1.1, off1.2)

def fillOffspring (jobs : List Job) (cfg : GAConfig) (adaptedMutationRate : ℚ)
    (population : List Individual) (g : Nat → ℚ) :
    Nat → Nat → List Individual → List Individual × Nat
  | 0, n, newPop => (newPop, n)
  | k + 1, n, newPop =>
    let c := mkOffspring jobs cfg adaptedMutationRate population g n
    fillOffspring jobs cfg adaptedMutationRate population g k c.2 (newPop ++ [c.1])

/-- The next generation built from `population` (already sorted in place by
the caller): the elite prefix followed by offspring up to
`populationSize`. -/
def nextGeneration (jobs : List Job) (cfg : GAConfig) (adaptedMutationRate : ℚ)
    (sortedPopulation : List Individual) (g : Nat → ℚ) (n : Nat) :
    List Individual × Nat :=
  let elite := sortedPopulation.take (eliteCount cfg.populationSize cfg.elitismRate)
  fillOffspring jobs cfg adaptedMutationRate sortedPopulation g
    (cfg.populationSize - elite.length) n elite

/-- One generation of `runGA`'s main loop.  `calculateDiversity` takes a
square root of a float, which has no exact rational counterpart, so the
diversity computation is a parameter `diversityFn`; it only feeds the
mutation-probability threshold.  Returns the new population, the extended
fitness history and the advanced draw counter. -/
def gaStep (jobs : List Job) (cfg : GAConfig) (diversityFn : List Individual → ℚ)
    (generation : Nat) (population : List Individual) (fitnessHistory : List ℚ)
    (g : Nat → ℚ) (n : Nat) : List Individual × List ℚ × Nat :=
  let sorted := sortPop population
  let currentBest := sorted.headD default
  let fitnessHistory1 := fitnessHistory ++ [currentBest.fitness]
  let adaptedMutationRate :=
    if cfg.useAdaptive && generation > 0 then
      adaptMutationRate cfg.mutationRate (diversityFn sorted)
        (detectStagnation fitnessHistory1 cfg.adaptiveWindow)
        ((generation : ℚ) / (cfg.generations : ℚ))
    else cfg.mutationRate
  let next := nextGeneration jobs cfg adaptedMutationRate sorted g n
  (next.1, fitnessHistory1, next.2)

/-- The populations at the start of generations `0, 1, ...`: the initial
population followed by the result of each `gaStep`. -/
def gaRun (jobs : List Job) (cfg : GAConfig) (diversityFn : List Individual → ℚ)
    (g : Nat → ℚ) :
    Nat → Nat → List Individual → List ℚ → Nat → List (List Individual)
  | 0, _generation, population, _hist, _n => [population]
  | k + 1, generation, population, hist, n =>
    let s := gaStep jobs cfg diversityFn generation population hist g n
    population :: gaRun jobs cfg diversityFn g k (generation + 1) s.1 s.2.1 s.2.2

/-- All populations arising in a `runGA` run (initial population and after
every generation). -/
def gaPopulations (jobs : List Job) (cfg : GAConfig)
    (diversityFn : List Individual → ℚ) (g : Nat → ℚ)
    (initialSequence : Option (List Nat)) : List (List Individual) :=
  let p := createInitialPopulation jobs cfg.populationSize cfg.tardinessWeight g 0
    initialSequence
  gaRun jobs cfg diversityFn g cfg.generations 0 p.1 [] p.2

/-! ## Predicates used by the specification statements -/

/-- A stage-1 machine the selection loop skips: the kit is not mounted here
and currently resides on some other machine (the `continue` branch). -/
def stage1Skipped (kit : SetupKit) (family : Nat) (m : Machine) : Prop :=
  m.currentSetupKit ≠ some family ∧ kit.currentMachine ≠ Option.none ∧
    kit.currentMachine ≠ some m.id

instance (kit : SetupKit) (family : Nat) (m : Machine) :
    Decidable (stage1Skipped kit family m) := by
  unfold stage1Skipped; infer_instance

/-- The setup the selection loop charges a (non-skipped) machine. -/
def stage1CandidateSetup (family : Nat) (m : Machine) : ℤ :=
  if m.currentSetupKit = some family then SETUP_TIME_SMD_MINOR else SETUP_TIME_SMD_MAJOR

/-- The job start time the selection loop computes for a machine. -/
def stage1CandidateStart (currentTime : ℤ) (kit : SetupKit) (family : Nat)
    (m : Machine) : ℤ :=
  max (max currentTime m.availableAt) kit.availableAt + stage1CandidateSetup family m

/-- The `(id, stage)` skeleton of the machine park, fixed for a whole run. -/
def machineFrame : List (Nat × Nat) :=
  initMachines.map (fun m => (m.id, m.stage))

/-- Well-formed job data (the interface in §6 of the spec requires positive
processing times). -/
def JobsOk (jobs : List Job) : Prop :=
  ∀ j ∈ jobs, 0 ≤ j.t_smd ∧ 0 ≤ j.t_aoi

instance (jobs : List Job) : Decidable (JobsOk jobs) := by
  unfold JobsOk; infer_instance

/-- The run invariant of the simulation: machine skeleton and kit keys are
fixed, a mounted kit's record points back at the machine mounting it, kit
records point at stage-1 machines, every stage-1 record finished no later
than its kit frees up, same-family stage-1 records do not overlap, all
times are nonnegative, and stage-2 records carry the tardiness formula. -/
structure StateInv (jobs : List Job) (state : SimState) (eventQueue : List SimEvent) :
    Prop where
  frame : state.machines.map (fun m => (m.id, m.stage)) = machineFrame
  kitsKeys : state.setupKits.map (fun k => k.family)
      = (mkSetupKits jobs).map (fun k => k.family)
  coherent : ∀ m ∈ state.machines, ∀ f, m.currentSetupKit = some f →
      ∃ k ∈ state.setupKits, k.family = f ∧ k.currentMachine = some m.id
  kitsPoint : ∀ k ∈ state.setupKits, ∀ oid, k.currentMachine = some oid →
      ∃ m ∈ state.machines, m.stage = 1 ∧ m.id = oid
  kitBound : ∀ r ∈ state.completedJobs, r.stage = 1 →
      ∃ k ∈ state.setupKits, k.family = r.family ∧ r.endTime ≤ k.availableAt
  disjoint1 : state.completedJobs.Pairwise (fun r1 r2 =>
      r1.stage = 1 → r2.stage = 1 → r1.family = r2.family → r1.endTime ≤ r2.startTime)
  nonnegT : 0 ≤ state.currentTime
  nonnegM : ∀ m ∈ state.machines, 0 ≤ m.availableAt
  nonnegK : ∀ k ∈ state.setupKits, 0 ≤ k.availableAt
  nonnegR : ∀ r ∈ state.completedJobs, 0 ≤ r.endTime
  nonnegE : ∀ e ∈ eventQueue, 0 ≤ e.time
  tard2 : ∀ r ∈ state.completedJobs, r.stage = 2 →
      ∃ j, jobsMapGet jobs r.jobId = some j ∧
        r.tardiness = max 0 (r.endTime - j.dueDate) ∧
        r.isLate = decide (0 < r.tardiness)

/-- The values already placed in a partially filled crossover child. -/
def somesVals (child : List (Option Nat)) : List Nat :=
  child.filterMap id

/-- The number of `-1` holes of a partially filled crossover child. -/
def noneCount (child : List (Option Nat)) : Nat :=
  child.countP (fun o => o.isNone)

/-- The holes of the child are exactly the cyclic interval of length
`noneCount child` starting at the write cursor. -/
def NonesCyc (size ci : Nat) (child : List (Option Nat)) : Prop :=
  ∀ i, (hi : i < child.length) →
    (child.get ⟨i, hi⟩ = Option.none ↔ ∃ u < noneCount child, i = (ci + u) % size)

/-- Every chromosome of the population is a permutation of `base`. -/
def PopPerm (base : List Nat) (population : List Individual) : Prop :=
  ∀ ind ∈ population, ind.chromosome.Perm base

/-- The per-machine effect of one stage-1 assignment on the machine list
(the three successive in-place updates of `tryAssignStage1Jobs` combined):
the chosen machine receives the job, the freshly mounted kit and the new
availability; the machine that previously held the kit - when it is a
different one - has its kit binding cleared; all other machines are
untouched. -/
def assignStage1F (jobId : Nat) (job : Job) (kit : SetupKit) (bm : Machine)
    (jobEnd : ℤ) (m : Machine) : Machine :=
  if m.id == bm.id then
    { m with
        currentJob := some jobId, availableAt := jobEnd,
        currentSetupKit := some job.family }
  else if kit.currentMachine == some m.id && kit.currentMachine != some bm.id then
    { m with currentSetupKit := Option.none }
  else m

/-! ## Concrete fixtures used by witnesses and counterexamples -/

/-- A single concrete job used by witnesses. -/
def wJob1 : Job :=
  { id := 1, dueDate := 100, family := 7, t_smd := 10, t_aoi := 5 }

/-- The stage-1 record of `wJob1` as the simulator produces it. -/
def wRec1 : ScheduledJob :=
  { jobId := 1, machineId := 1, stage := 1, startTime := 65, endTime := 75,
    setupTime := 65, setupType := SetupType.major, setupStartTime := some 0,
    processingTime := 10, family := 7, isLate := false, tardiness := 0 }

/-- A concrete state with `wJob1` waiting in the stage-2 queue. -/
def wState2 : SimState :=
  { currentTime := 75, machines := initMachines, setupKits := mkSetupKits [wJob1],
    stage1Queue := [], stage2Queue := [1], completedJobs := [wRec1] }

/-- The first idle stage-2 machine of the initial machine park. -/
def wMachine5 : Machine :=
  { id := 5, stage := 2, currentSetupKit := Option.none, availableAt := 0,
    currentJob := Option.none }

/-- The fresh setup kit of family 7 as `mkSetupKits [wJob1]` builds it. -/
def wKit7 : SetupKit :=
  { family := 7, currentMachine := Option.none, inTransit := false, availableAt := 0 }

/-- A minimal GA configuration used by witnesses. -/
def wCfg : GAConfig :=
  { populationSize := 1, generations := 1, tournamentSize := 2, crossoverRate := 0,
    mutationRate := 0, mutationMethodInsert := false, elitismRate := 0,
    tardinessWeight := 0, useAdaptive := false, adaptiveWindow := 10 }

/-! ## Theorems: event queue (C4) -/

theorem pqPush_perm (q : List SimEvent) (e : SimEvent) :
    (pqPush q e).Perm (e :: q) := by
  induction q with
  | nil => simp [pqPush]
  | cons x xs ih =>
    simp only [pqPush]
    split
    · exact List.Perm.refl _
    · exact (ih.cons x).trans (List.Perm.swap e x xs)

theorem pqPush_sorted {q : List SimEvent}
    (h : List.Sorted (fun a b : SimEvent => a.time ≤ b.time) q) (e : SimEvent) :
    List.Sorted (fun a b : SimEvent => a.time ≤ b.time) (pqPush q e) := by
  induction q with
  | nil => simp [pqPush]
  | cons x xs ih =>
    rw [List.sorted_cons] at h
    simp only [pqPush]
    split
    · rename_i hlt
      rw [List.sorted_cons]
      refine ⟨?_, List.sorted_cons.mpr h⟩
      intro b hb
      rcases List.mem_cons.mp hb with rfl | hb
      · exact le_of_lt hlt
      · exact le_trans (le_of_lt hlt) (h.1 b hb)
    · rename_i hge
      push_neg at hge
      rw [List.sorted_cons]
      refine ⟨?_, ih h.2⟩
      intro b hb
      have hmem : b ∈ e :: xs := (pqPush_perm xs e).mem_iff.mp hb
      rcases List.mem_cons.mp hmem with rfl | hb'
      · exact hge
      · exact h.1 b hb'

theorem pqOfPushes_aux_perm (es : List SimEvent) :
    ∀ q, (es.foldl pqPush q).Perm (q ++ es) := by
  induction es with
  | nil => intro q; simp
  | cons e es ih =>
    intro q
    have h1 := ih (pqPush q e)
    have h2 : (pqPush q e ++ es).Perm ((e :: q) ++ es) :=
      List.Perm.append_right es (pqPush_perm q e)
    have h3 : ((e :: q) ++ es).Perm (q ++ e :: es) := by
      simpa using (@List.perm_middle _ e q es).symm
    exact (h1.trans h2).trans h3

theorem pqOfPushes_perm (es : List SimEvent) : (pqOfPushes es).Perm es := by
  simpa using pqOfPushes_aux_perm es []

theorem pqOfPushes_sorted (es : List SimEvent) :
    List.Sorted (fun a b : SimEvent => a.time ≤ b.time) (pqOfPushes es) := by
  suffices h : ∀ q, List.Sorted (fun a b : SimEvent => a.time ≤ b.time) q →
      List.Sorted (fun a b : SimEvent => a.time ≤ b.time) (es.foldl pqPush q) by
    exact h [] (by simp)
  induction es with
  | nil => intro q hq; simpa using hq
  | cons e es ih => intro q hq; exact ih (pqPush q e) (pqPush_sorted hq e)

theorem pqOfPushes_head_firstMin (es : List SimEvent) (hne : es ≠ []) :
    ∃ e, pqPop (pqOfPushes es) = some e ∧
      (∀ x ∈ es, e.time ≤ x.time) ∧
      ∃ l1 l2, es = l1 ++ e :: l2 ∧ ∀ x ∈ l1, e.time < x.time := by
  induction es using List.reverseRecOn with
  | nil => exact absurd rfl hne
  | append_singleton es a ih =>
    rcases es.eq_nil_or_concat with rfl | _
    · refine ⟨a, ?_, ?_, [], [], by simp, by simp⟩
      · simp [pqOfPushes, pqPush, pqPop]
      · intro x hx; simp at hx; simp [hx]
    · have hes : es ≠ [] := by
        rename_i hcon; rcases hcon with ⟨l, x, rfl⟩; simp
      obtain ⟨e, he, hmin, l1, l2, hdec, hl1⟩ := ih hes
      have hfold : pqOfPushes (es ++ [a]) = pqPush (pqOfPushes es) a := by
        simp [pqOfPushes, List.foldl_append]
      obtain ⟨t, ht⟩ : ∃ t, pqOfPushes es = e :: t := by
        cases hq : pqOfPushes es with
        | nil => simp [pqPop, hq] at he
        | cons y t => simp [pqPop, hq] at he; exact ⟨t, by rw [he]⟩
      rw [hfold, ht]
      simp only [pqPush]
      by_cases hlt : a.time < e.time
      · rw [if_pos hlt]
        refine ⟨a, rfl, ?_, es, [], by simp, ?_⟩
        · intro x hx
          rcases List.mem_append.mp hx with hx | hx
          · exact le_trans (le_of_lt hlt) (hmin x hx)
          · simp at hx; simp [hx]
        · intro x hx; exact lt_of_lt_of_le hlt (hmin x hx)
      · rw [if_neg hlt]
        push_neg at hlt
        refine ⟨e, rfl, ?_, l1, l2 ++ [a], by rw [hdec]; simp, hl1⟩
        intro x hx
        rcases List.mem_append.mp hx with hx | hx
        · exact hmin x hx
        · simp at hx; simpa [hx] using hlt

/-- C4 — corrected.  The `PriorityQueue` pops a queued event with the
smallest time (`Option.none` exactly on the empty queue); but ties are
broken by insertion order (JavaScript's sort is stable and compares only
`time`), not by the event-type priority the claim states. -/
theorem pq_pop_earliest (es : List SimEvent) :
    (pqPop (pqOfPushes es) = Option.none ↔ es = []) ∧
    (∀ e, pqPop (pqOfPushes es) = some e →
      (∀ x ∈ es, e.time ≤ x.time) ∧
      ∃ l1 l2, es = l1 ++ e :: l2 ∧ ∀ x ∈ l1, e.time < x.time) := by
  constructor
  · constructor
    · intro h
      by_contra hne
      obtain ⟨e, he, -⟩ := pqOfPushes_head_firstMin es hne
      rw [h] at he; exact Option.noConfusion he
    · rintro rfl; rfl
  · intro e he
    have hne : es ≠ [] := by
      rintro rfl
      exact Option.noConfusion he
    obtain ⟨e', he', hmin, hdec⟩ := pqOfPushes_head_firstMin es hne
    rw [he] at he'
    cases he'
    exact ⟨hmin, hdec⟩

/-- C4 — witness for the corrected theorem at a concrete push sequence. -/
theorem pq_pop_earliest_witness :
    pqPop (pqOfPushes
        [{ type := EventType.SIMULATION_END, time := 3, jobId := 1, machineId := 5, stage := 2 },
         { type := EventType.STAGE1_COMPLETE, time := 2, jobId := 2, machineId := 1, stage := 1 }])
      = some { type := EventType.STAGE1_COMPLETE, time := 2, jobId := 2, machineId := 1, stage := 1 } ∧
    ((∀ x ∈ [({ type := EventType.SIMULATION_END, time := 3, jobId := 1, machineId := 5, stage := 2 } : SimEvent),
         { type := EventType.STAGE1_COMPLETE, time := 2, jobId := 2, machineId := 1, stage := 1 }],
        ({ type := EventType.STAGE1_COMPLETE, time := 2, jobId := 2, machineId := 1, stage := 1 } : SimEvent).time ≤ x.time) ∧
      ∃ l1 l2, [({ type := EventType.SIMULATION_END, time := 3, jobId := 1, machineId := 5, stage := 2 } : SimEvent),
         { type := EventType.STAGE1_COMPLETE, time := 2, jobId := 2, machineId := 1, stage := 1 }]
          = l1 ++ { type := EventType.STAGE1_COMPLETE, time := 2, jobId := 2, machineId := 1, stage := 1 } :: l2 ∧
        ∀ x ∈ l1, ({ type := EventType.STAGE1_COMPLETE, time := 2, jobId := 2, machineId := 1, stage := 1 } : SimEvent).time < x.time) :=
  ⟨by decide,
   (pq_pop_earliest _).2 _ (by decide)⟩

/-- C4 — counterexample to the claimed event-type tie-break: two events with
equal time are popped in insertion order, so the later-pushed `SETUP_START`
event (type priority 1) loses to the earlier-pushed `SIMULATION_END` event
(type priority 5), contradicting the claimed ordering. -/
theorem pq_tiebreak_counterexample :
    pqPop (pqOfPushes
        [{ type := EventType.SIMULATION_END, time := 7, jobId := 1, machineId := 5, stage := 2 },
         { type := EventType.SETUP_START, time := 7, jobId := 2, machineId := 1, stage := 1 }])
      = some { type := EventType.SIMULATION_END, time := 7, jobId := 1, machineId := 5, stage := 2 } ∧
    ({ type := EventType.SIMULATION_END, time := 7, jobId := 1, machineId := 5, stage := 2 } : SimEvent).time
      = ({ type := EventType.SETUP_START, time := 7, jobId := 2, machineId := 1, stage := 1 } : SimEvent).time ∧
    eventTypePriority EventType.SETUP_START < eventTypePriority EventType.SIMULATION_END := by
  refine ⟨by decide, by decide, by decide⟩

/-! ## Theorems: fitness evaluator (C5) -/

/-- C5.  For every job list, sequence and weight `w ∈ [0,1]`, `evaluateFitness`
returns `fitness = (1−w)·makespan + w·totalTardiness` together with the
makespan and total tardiness of the one `runSimulation` run on
`(jobs, sequence)`, both unscaled (the scale factors are 1). -/
theorem evaluateFitness_spec (jobs : List Job) (sequence : List Nat) (w : ℚ)
    (h0 : 0 ≤ w) (h1 : w ≤ 1) :
    evaluateFitness jobs sequence w =
      ((1 - w) * ((runSimulation jobs sequence).makespan : ℚ)
          + w * ((runSimulation jobs sequence).totalTardiness : ℚ),
       (runSimulation jobs sequence).makespan,
       (runSimulation jobs sequence).totalTardiness) := by
  simp [evaluateFitness, MAKESPAN_SCALE, TARDINESS_SCALE]

/-- C5 — witness at `jobs = []`, `sequence = []`, `w = 0`. -/
theorem evaluateFitness_spec_witness :
    (0 : ℚ) ≤ 0 ∧ (0 : ℚ) ≤ 1 ∧
    evaluateFitness [] [] 0 =
      ((1 - 0) * ((runSimulation [] []).makespan : ℚ)
          + 0 * ((runSimulation [] []).totalTardiness : ℚ),
       (runSimulation [] []).makespan,
       (runSimulation [] []).totalTardiness) :=
  ⟨le_refl 0, zero_le_one, evaluateFitness_spec [] [] 0 (le_refl 0) zero_le_one⟩

/-! ## Theorems: elitism (C6) -/

theorem popInsert_perm (q : List Individual) (x : Individual) :
    (popInsert q x).Perm (x :: q) := by
  induction q with
  | nil => simp [popInsert]
  | cons y ys ih =>
    simp only [popInsert]
    split
    · exact List.Perm.refl _
    · exact (ih.cons y).trans (List.Perm.swap x y ys)

theorem popInsert_sorted {q : List Individual}
    (h : List.Sorted (fun a b : Individual => a.fitness ≤ b.fitness) q) (x : Individual) :
    List.Sorted (fun a b : Individual => a.fitness ≤ b.fitness) (popInsert q x) := by
  induction q with
  | nil => simp [popInsert]
  | cons y ys ih =>
    rw [List.sorted_cons] at h
    simp only [popInsert]
    split
    · rename_i hlt
      rw [List.sorted_cons]
      refine ⟨?_, List.sorted_cons.mpr h⟩
      intro b hb
      rcases List.mem_cons.mp hb with rfl | hb
      · exact le_of_lt hlt
      · exact le_trans (le_of_lt hlt) (h.1 b hb)
    · rename_i hge
      push_neg at hge
      rw [List.sorted_cons]
      refine ⟨?_, ih h.2⟩
      intro b hb
      have hmem : b ∈ x :: ys := (popInsert_perm ys x).mem_iff.mp hb
      rcases List.mem_cons.mp hmem with rfl | hb'
      · exact hge
      · exact h.1 b hb'

theorem sortPop_aux_perm (population : List Individual) :
    ∀ q, (population.foldl popInsert q).Perm (q ++ population) := by
  induction population with
  | nil => intro q; simp
  | cons x xs ih =>
    intro q
    have h1 := ih (popInsert q x)
    have h2 : (popInsert q x ++ xs).Perm ((x :: q) ++ xs) :=
      List.Perm.append_right xs (popInsert_perm q x)
    have h3 : ((x :: q) ++ xs).Perm (q ++ x :: xs) := by
      simpa using (@List.perm_middle _ x q xs).symm
    exact (h1.trans h2).trans h3

theorem sortPop_perm (population : List Individual) :
    (sortPop population).Perm population := by
  simpa using sortPop_aux_perm population []

theorem sortPop_sorted (population : List Individual) :
    List.Sorted (fun a b : Individual => a.fitness ≤ b.fitness) (sortPop population) := by
  suffices h : ∀ q, List.Sorted (fun a b : Individual => a.fitness ≤ b.fitness) q →
      List.Sorted (fun a b : Individual => a.fitness ≤ b.fitness)
        (population.foldl popInsert q) by
    exact h [] (by simp)
  induction population with
  | nil => intro q hq; simpa using hq
  | cons x xs ih => intro q hq; exact ih (popInsert q x) (popInsert_sorted hq x)

theorem fillOffspring_append (jobs : List Job) (cfg : GAConfig) (rate : ℚ)
    (population : List Individual) (g : Nat → ℚ) :
    ∀ k n newPop, ∃ tail,
      (fillOffspring jobs cfg rate population g k n newPop).1 = newPop ++ tail := by
  intro k
  induction k with
  | zero => intro n newPop; exact ⟨[], by simp [fillOffspring]⟩
  | succ k ih =>
    intro n newPop
    obtain ⟨tail, htail⟩ := ih
      (mkOffspring jobs cfg rate population g n).2
      (newPop ++ [(mkOffspring jobs cfg rate population g n).1])
    exact ⟨(mkOffspring jobs cfg rate population g n).1 :: tail,
      by simp [fillOffspring, htail]⟩

/-- C6 — counterexample.  The source computes the elite count as
`Math.max(1, Math.floor(populationSize * elitismRate))`: with
`populationSize = 30` and `elitismRate = 0.05` (inside the configured range
`[0.05, 0.3]`) it keeps 1 elite individual, while the claimed
`ceil(populationSize × elitismRate)` would be 2. -/
theorem eliteCount_counterexample :
    eliteCount 30 (1 / 20) = 1 ∧ ⌈(30 : ℚ) * (1 / 20)⌉ = 2 := by
  constructor
  · norm_num [eliteCount]
  · rw [show (30 : ℚ) * (1 / 20) = 3 / 2 by norm_num]
    rw [Int.ceil_eq_iff]
    norm_num

theorem nextGeneration_take (jobs : List Job) (cfg : GAConfig) (rate : ℚ)
    (sortedPopulation : List Individual) (g : Nat → ℚ) (n : Nat)
    (h : eliteCount cfg.populationSize cfg.elitismRate ≤ sortedPopulation.length) :
    ((nextGeneration jobs cfg rate sortedPopulation g n).1).take
        (eliteCount cfg.populationSize cfg.elitismRate)
      = sortedPopulation.take (eliteCount cfg.populationSize cfg.elitismRate) := by
  set k := eliteCount cfg.populationSize cfg.elitismRate with hk
  have helite : (sortedPopulation.take k).length = k := by
    rw [List.length_take]; exact Nat.min_eq_left h
  obtain ⟨tail, htail⟩ := fillOffspring_append jobs cfg rate sortedPopulation g
    (cfg.populationSize - (sortedPopulation.take k).length) n (sortedPopulation.take k)
  show (fillOffspring jobs cfg rate sortedPopulation g
      (cfg.populationSize - (sortedPopulation.take k).length) n
      (sortedPopulation.take k)).1.take k = sortedPopulation.take k
  rw [htail]
  have hl := List.take_left (sortedPopulation.take k) tail
  rwa [helite] at hl

/-- C6 — amended.  In every generation the optimizer copies exactly
`max(1, floor(populationSize × elitismRate))` individuals — hence at least
one — unchanged from the top of the fitness-sorted population into the next
generation (the sort is ascending by fitness, lower is better). -/
theorem gaStep_elitism (jobs : List Job) (cfg : GAConfig)
    (diversityFn : List Individual → ℚ) (generation : Nat)
    (population : List Individual) (fitnessHistory : List ℚ) (g : Nat → ℚ) (n : Nat)
    (h : eliteCount cfg.populationSize cfg.elitismRate ≤ population.length) :
    ((gaStep jobs cfg diversityFn generation population fitnessHistory g n).1).take
        (eliteCount cfg.populationSize cfg.elitismRate)
      = (sortPop population).take (eliteCount cfg.populationSize cfg.elitismRate) ∧
    eliteCount cfg.populationSize cfg.elitismRate
      = max 1 (Int.toNat ⌊(cfg.populationSize : ℚ) * cfg.elitismRate⌋) ∧
    1 ≤ eliteCount cfg.populationSize cfg.elitismRate ∧
    (sortPop population).Perm population ∧
    List.Sorted (fun a b : Individual => a.fitness ≤ b.fitness) (sortPop population) := by
  refine ⟨?_, rfl, le_max_left 1 _, sortPop_perm population, sortPop_sorted population⟩
  have hlen : (sortPop population).length = population.length :=
    (sortPop_perm population).length_eq
  have hkle : eliteCount cfg.populationSize cfg.elitismRate ≤ (sortPop population).length := by
    rw [hlen]; exact h
  simp only [gaStep]
  exact nextGeneration_take jobs cfg _ (sortPop population) g n hkle

/-! ## Theorems: stage-2 assignment (C3) -/

theorem foldlMinAvail_spec (rest : List Machine) :
    ∀ acc : Machine,
      ((rest.foldl (fun best c => if c.availableAt < best.availableAt then c else best) acc)
          = acc
        ∨ (rest.foldl (fun best c => if c.availableAt < best.availableAt then c else best) acc)
          ∈ rest) ∧
      (rest.foldl (fun best c => if c.availableAt < best.availableAt then c else best)
          acc).availableAt ≤ acc.availableAt ∧
      ∀ m ∈ rest,
        (rest.foldl (fun best c => if c.availableAt < best.availableAt then c else best)
          acc).availableAt ≤ m.availableAt := by
  induction rest with
  | nil => intro acc; simp
  | cons c cs ih =>
    intro acc
    simp only [List.foldl_cons]
    by_cases hc : c.availableAt < acc.availableAt
    · rw [if_pos hc]
      obtain ⟨hmem, hle, hall⟩ := ih c
      refine ⟨?_, le_trans hle (le_of_lt hc), ?_⟩
      · rcases hmem with h | h
        · exact Or.inr (by rw [h]; exact List.mem_cons_self c cs)
        · exact Or.inr (List.mem_cons_of_mem c h)
      · intro m hm
        rcases List.mem_cons.mp hm with rfl | hm
        · exact hle
        · exact hall m hm
    · rw [if_neg hc]
      push_neg at hc
      obtain ⟨hmem, hle, hall⟩ := ih acc
      refine ⟨?_, hle, ?_⟩
      · rcases hmem with h | h
        · exact Or.inl h
        · exact Or.inr (List.mem_cons_of_mem c h)
      · intro m hm
        rcases List.mem_cons.mp hm with rfl | hm
        · exact le_trans hle hc
        · exact hall m hm

theorem reduceMinAvail_spec (ms : List Machine) (bm : Machine)
    (h : reduceMinAvail ms = some bm) :
    bm ∈ ms ∧ ∀ m ∈ ms, bm.availableAt ≤ m.availableAt := by
  cases ms with
  | nil => simp [reduceMinAvail] at h
  | cons m0 rest =>
    simp only [reduceMinAvail, Option.some_inj] at h
    obtain ⟨hmem, hle, hall⟩ := foldlMinAvail_spec rest m0
    rw [h] at hmem hle hall
    constructor
    · rcases hmem with h' | h'
      · rw [h']; exact List.mem_cons_self m0 rest
      · exact List.mem_cons_of_mem m0 h'
    · intro m hm
      rcases List.mem_cons.mp hm with rfl | hm
      · exact hle
      · exact hall m hm

/-- C3.  The job at the head of the stage-2 queue is assigned to the stage-2
machine with the earliest `availableAt`; the assignment always charges the
fixed 25-minute setup, starting at `max(stage-1 end, machine availableAt,
clock)`, processing starts 25 minutes later, and the recorded stage-2 job
carries `tardiness = max(0, endTime − dueDate)` and
`isLate = (tardiness > 0)`. -/
theorem stage2_assignment_spec (jobs : List Job) (state : SimState)
    (eventQueue : List SimEvent) (jobId : Nat) (rest : List Nat) (job : Job)
    (stage1Job : ScheduledJob) (bestMachine : Machine)
    (hq : state.stage2Queue = jobId :: rest)
    (hj : jobsMapGet jobs jobId = some job)
    (hbm : reduceMinAvail (state.machines.filter (fun m => m.stage == 2))
        = some bestMachine)
    (hfind : state.completedJobs.find? (fun sj => sj.jobId == jobId && sj.stage == 1)
        = some stage1Job) :
    (bestMachine ∈ state.machines ∧ bestMachine.stage = 2 ∧
      ∀ m ∈ state.machines, m.stage = 2 → bestMachine.availableAt ≤ m.availableAt) ∧
    (tryAssignStage2Jobs jobs state eventQueue =
      tryAssignStage2Loop jobs rest
        (assignStage2 state eventQueue rest jobId job stage1Job bestMachine).1
        (assignStage2 state eventQueue rest jobId job stage1Job bestMachine).2) ∧
    (∃ r : ScheduledJob,
      (assignStage2 state eventQueue rest jobId job stage1Job bestMachine).1.completedJobs
        = state.completedJobs ++ [r] ∧
      r.jobId = jobId ∧ r.machineId = bestMachine.id ∧ r.stage = 2 ∧
      r.setupTime = 25 ∧ r.setupType = SetupType.aoi ∧
      r.setupStartTime
        = some (max (max stage1Job.endTime bestMachine.availableAt) state.currentTime) ∧
      r.startTime
        = max (max stage1Job.endTime bestMachine.availableAt) state.currentTime + 25 ∧
      r.endTime = r.startTime + job.t_aoi ∧
      r.tardiness = max 0 (r.endTime - job.dueDate) ∧
      r.isLate = decide (0 < r.tardiness)) := by
  obtain ⟨hmem, hall⟩ := reduceMinAvail_spec _ _ hbm
  have hmem' := List.mem_filter.mp hmem
  refine ⟨⟨hmem'.1, by simpa using hmem'.2, ?_⟩, ?_, ?_⟩
  · intro m hm hst
    exact hall m (List.mem_filter.mpr ⟨hm, by simpa using hst⟩)
  · rw [tryAssignStage2Jobs, hq]
    simp only [tryAssignStage2Loop, hj, hbm, hfind]
  · refine ⟨_, rfl, rfl, rfl, rfl, rfl, rfl, rfl, rfl, rfl, rfl, rfl⟩

/-- C3 — witness: a state with job 1 waiting in the stage-2 queue after a
stage-1 record; all hypotheses are checked by evaluation and the theorem is
applied there. -/
theorem stage2_assignment_spec_witness :
    wState2.stage2Queue = 1 :: [] ∧
    jobsMapGet [wJob1] 1 = some wJob1 ∧
    reduceMinAvail (wState2.machines.filter (fun m => m.stage == 2))
      = some wMachine5 ∧
    wState2.completedJobs.find? (fun sj => sj.jobId == 1 && sj.stage == 1)
      = some wRec1 ∧
    (wMachine5 ∈ wState2.machines ∧ wMachine5.stage = 2 ∧
      ∀ m ∈ wState2.machines, m.stage = 2 →
        wMachine5.availableAt ≤ m.availableAt) :=
  ⟨by decide, by decide, by decide, by decide,
   (stage2_assignment_spec [wJob1] wState2 [] 1 [] wJob1 wRec1 wMachine5
      (by decide) (by decide) (by decide) (by decide)).1⟩

/-- C6 — witness for the amended theorem at a concrete configuration. -/
theorem gaStep_elitism_witness :
    eliteCount 1 0 ≤ ([(default : Individual)] : List Individual).length ∧
    (((gaStep [] wCfg (fun _ => 0) 0 [default] [] (fun _ => 0) 0).1).take (eliteCount 1 0)
        = (sortPop [default]).take (eliteCount 1 0) ∧
      eliteCount 1 0 = max 1 (Int.toNat ⌊((1 : Nat) : ℚ) * 0⌋) ∧
      1 ≤ eliteCount 1 0 ∧
      (sortPop [default]).Perm [default] ∧
      List.Sorted (fun a b : Individual => a.fitness ≤ b.fitness) (sortPop [default])) := by
  have hE : eliteCount 1 0 ≤ ([(default : Individual)] : List Individual).length := by
    norm_num [eliteCount]
  exact ⟨hE, gaStep_elitism [] wCfg (fun _ => 0) 0 [default] [] (fun _ => 0) 0 hE⟩

/-! ## Theorems: stage-1 greedy assignment (C2) -/

theorem stage1Consider_none_eq (currentTime kitAvail : ℤ) (m : Machine) (st : ℤ) :
    stage1Consider currentTime kitAvail Option.none m st
      = some (m, max (max currentTime m.availableAt) kitAvail + st, st) := rfl

theorem stage1Consider_some_eq (currentTime kitAvail : ℤ) (m : Machine) (st : ℤ)
    (abm : Machine) (abst abs : ℤ) :
    stage1Consider currentTime kitAvail (some (abm, abst, abs)) m st
      = if max (max currentTime m.availableAt) kitAvail + st < abst then
          some (m, max (max currentTime m.availableAt) kitAvail + st, st)
        else some (abm, abst, abs) := rfl

/-- One step of the stage-1 machine-selection loop through `stage1Consider`
keeps the running-best characterization, for a machine charged setup `st`. -/
theorem stage1Consider_invariant (currentTime : ℤ) (kit : SetupKit) (family : Nat)
    (m : Machine) (st : ℤ) (processed : List Machine) (acc : Option (Machine × ℤ × ℤ))
    (hnskip : ¬ stage1Skipped kit family m)
    (hst : stage1CandidateSetup family m = st)
    (hnone : acc = Option.none → ∀ x ∈ processed, stage1Skipped kit family x)
    (hsome : ∀ bm bst bs, acc = some (bm, bst, bs) →
      bm ∈ processed ∧ ¬ stage1Skipped kit family bm ∧
        bs = stage1CandidateSetup family bm ∧
        bst = stage1CandidateStart currentTime kit family bm ∧
        ∀ x ∈ processed, ¬ stage1Skipped kit family x →
          bst ≤ stage1CandidateStart currentTime kit family x) :
    (stage1Consider currentTime kit.availableAt acc m st = Option.none →
      ∀ x ∈ processed ++ [m], stage1Skipped kit family x) ∧
    (∀ bm bst bs,
      stage1Consider currentTime kit.availableAt acc m st = some (bm, bst, bs) →
      bm ∈ processed ++ [m] ∧ ¬ stage1Skipped kit family bm ∧
        bs = stage1CandidateSetup family bm ∧
        bst = stage1CandidateStart currentTime kit family bm ∧
        ∀ x ∈ processed ++ [m], ¬ stage1Skipped kit family x →
          bst ≤ stage1CandidateStart currentTime kit family x) := by
  have hcstart : stage1CandidateStart currentTime kit family m
      = max (max currentTime m.availableAt) kit.availableAt + st := by
    rw [stage1CandidateStart, hst]
  cases acc with
  | none =>
    rw [stage1Consider_none_eq]
    refine ⟨fun hcn => Option.noConfusion hcn, ?_⟩
    intro bm bst bs hcs
    injection hcs with hcs
    rw [Prod.mk.injEq, Prod.mk.injEq] at hcs
    obtain ⟨h1, h2, h3⟩ := hcs
    rw [← h1, ← h2, ← h3]
    refine ⟨List.mem_append.mpr (Or.inr (List.mem_singleton.mpr rfl)), hnskip,
      hst.symm, hcstart.symm, ?_⟩
    intro x hx hxs
    rcases List.mem_append.mp hx with hx | hx
    · exact absurd (hnone rfl x hx) hxs
    · rw [List.mem_singleton.mp hx, hcstart]
  | some p =>
    obtain ⟨abm, abst, abs⟩ := p
    obtain ⟨hin, hnsk, hbs, hbst, hmin⟩ := hsome abm abst abs rfl
    rw [stage1Consider_some_eq]
    by_cases hlt : max (max currentTime m.availableAt) kit.availableAt + st < abst
    · rw [if_pos hlt]
      refine ⟨fun hcn => Option.noConfusion hcn, ?_⟩
      intro bm bst bs hcs
      injection hcs with hcs
      rw [Prod.mk.injEq, Prod.mk.injEq] at hcs
      obtain ⟨h1, h2, h3⟩ := hcs
      rw [← h1, ← h2, ← h3]
      refine ⟨List.mem_append.mpr (Or.inr (List.mem_singleton.mpr rfl)), hnskip,
        hst.symm, hcstart.symm, ?_⟩
      intro x hx hxs
      rcases List.mem_append.mp hx with hx | hx
      · exact le_trans (le_of_lt hlt) (hmin x hx hxs)
      · rw [List.mem_singleton.mp hx, hcstart]
    · rw [if_neg hlt]
      push_neg at hlt
      refine ⟨fun hcn => Option.noConfusion hcn, ?_⟩
      intro bm bst bs hcs
      injection hcs with hcs
      rw [Prod.mk.injEq, Prod.mk.injEq] at hcs
      obtain ⟨h1, h2, h3⟩ := hcs
      rw [← h1, ← h2, ← h3]
      refine ⟨List.mem_append.mpr (Or.inl hin), hnsk, hbs, hbst, ?_⟩
      intro x hx hxs
      rcases List.mem_append.mp hx with hx | hx
      · exact hmin x hx hxs
      · rw [List.mem_singleton.mp hx, hcstart]
        exact hbst ▸ hlt

theorem findBestStage1_fold (currentTime : ℤ) (kit : SetupKit) (family : Nat) :
    ∀ (ms : List Machine) (acc : Option (Machine × ℤ × ℤ)) (processed : List Machine),
    (acc = Option.none → ∀ m ∈ processed, stage1Skipped kit family m) →
    (∀ bm bst bs, acc = some (bm, bst, bs) →
      bm ∈ processed ∧ ¬ stage1Skipped kit family bm ∧
        bs = stage1CandidateSetup family bm ∧
        bst = stage1CandidateStart currentTime kit family bm ∧
        ∀ m ∈ processed, ¬ stage1Skipped kit family m →
          bst ≤ stage1CandidateStart currentTime kit family m) →
    ((ms.foldl
        (fun best m =>
          if m.currentSetupKit == some family then
            stage1Consider currentTime kit.availableAt best m SETUP_TIME_SMD_MINOR
          else if kit.currentMachine != Option.none && kit.currentMachine != some m.id then
            best
          else
            stage1Consider currentTime kit.availableAt best m SETUP_TIME_SMD_MAJOR)
        acc = Option.none →
        ∀ m ∈ processed ++ ms, stage1Skipped kit family m) ∧
      (∀ bm bst bs,
        ms.foldl
          (fun best m =>
            if m.currentSetupKit == some family then
              stage1Consider currentTime kit.availableAt best m SETUP_TIME_SMD_MINOR
            else if kit.currentMachine != Option.none && kit.currentMachine != some m.id then
              best
            else
              stage1Consider currentTime kit.availableAt best m SETUP_TIME_SMD_MAJOR)
          acc = some (bm, bst, bs) →
        bm ∈ processed ++ ms ∧ ¬ stage1Skipped kit family bm ∧
          bs = stage1CandidateSetup family bm ∧
          bst = stage1CandidateStart currentTime kit family bm ∧
          ∀ m ∈ processed ++ ms, ¬ stage1Skipped kit family m →
            bst ≤ stage1CandidateStart currentTime kit family m)) := by
  intro ms
  induction ms with
  | nil =>
    intro acc processed hnone hsome
    simpa using ⟨hnone, hsome⟩
  | cons m ms ih =>
    intro acc processed hnone hsome
    simp only [List.foldl_cons]
    by_cases hmount : m.currentSetupKit = some family
    · rw [if_pos (show (m.currentSetupKit == some family) = true from beq_iff_eq.mpr hmount)]
      have hnskip : ¬ stage1Skipped kit family m := fun hs => hs.1 hmount
      have hst : stage1CandidateSetup family m = SETUP_TIME_SMD_MINOR := by
        simp [stage1CandidateSetup, hmount]
      obtain ⟨h1, h2⟩ := stage1Consider_invariant currentTime kit family m
        SETUP_TIME_SMD_MINOR processed acc hnskip hst hnone hsome
      have h := ih (stage1Consider currentTime kit.availableAt acc m SETUP_TIME_SMD_MINOR)
        (processed ++ [m]) h1 h2
      simpa [List.append_assoc] using h
    · by_cases hskip : kit.currentMachine ≠ Option.none ∧ kit.currentMachine ≠ some m.id
      · have hb : (kit.currentMachine != Option.none && kit.currentMachine != some m.id)
            = true := by
          simp only [Bool.and_eq_true, bne_iff_ne]
          exact ⟨hskip.1, hskip.2⟩
        rw [if_neg (show ¬ (m.currentSetupKit == some family) = true by
              simpa using hmount), if_pos hb]
        have hsk : stage1Skipped kit family m := ⟨hmount, hskip.1, hskip.2⟩
        have h1 : acc = Option.none → ∀ x ∈ processed ++ [m], stage1Skipped kit family x := by
          intro hacc x hx
          rcases List.mem_append.mp hx with hx | hx
          · exact hnone hacc x hx
          · rw [List.mem_singleton.mp hx]; exact hsk
        have h2 : ∀ bm bst bs, acc = some (bm, bst, bs) →
            bm ∈ processed ++ [m] ∧ ¬ stage1Skipped kit family bm ∧
              bs = stage1CandidateSetup family bm ∧
              bst = stage1CandidateStart currentTime kit family bm ∧
              ∀ x ∈ processed ++ [m], ¬ stage1Skipped kit family x →
                bst ≤ stage1CandidateStart currentTime kit family x := by
          intro bm bst bs hacc
          obtain ⟨hin, hnsk, hbs, hbst, hmin⟩ := hsome bm bst bs hacc
          refine ⟨List.mem_append.mpr (Or.inl hin), hnsk, hbs, hbst, ?_⟩
          intro x hx hxs
          rcases List.mem_append.mp hx with hx | hx
          · exact hmin x hx hxs
          · rw [List.mem_singleton.mp hx] at hxs ⊢
            exact absurd hsk hxs
        have h := ih acc (processed ++ [m]) h1 h2
        simpa [List.append_assoc] using h
      · have hb : ¬ (kit.currentMachine != Option.none && kit.currentMachine != some m.id)
            = true := by
          simp only [Bool.and_eq_true, bne_iff_ne]
          exact hskip
        rw [if_neg (show ¬ (m.currentSetupKit == some family) = true by
              simpa using hmount), if_neg hb]
        have hnskip : ¬ stage1Skipped kit family m := fun hs => hskip ⟨hs.2.1, hs.2.2⟩
        have hst : stage1CandidateSetup family m = SETUP_TIME_SMD_MAJOR := by
          simp [stage1CandidateSetup, hmount]
        obtain ⟨h1, h2⟩ := stage1Consider_invariant currentTime kit family m
          SETUP_TIME_SMD_MAJOR processed acc hnskip hst hnone hsome
        have h := ih (stage1Consider currentTime kit.availableAt acc m SETUP_TIME_SMD_MAJOR)
          (processed ++ [m]) h1 h2
        simpa [List.append_assoc] using h

/-- The full characterization of `findBestStage1`: `Option.none` means every
machine was skipped; a returned triple is a non-skipped machine with its
charged setup and start time, minimal among the non-skipped machines. -/
theorem findBestStage1_spec (currentTime : ℤ) (kit : SetupKit) (family : Nat)
    (ms : List Machine) :
    (findBestStage1 currentTime kit family ms = Option.none →
      ∀ m ∈ ms, stage1Skipped kit family m) ∧
    (∀ bm bst bs, findBestStage1 currentTime kit family ms = some (bm, bst, bs) →
      bm ∈ ms ∧ ¬ stage1Skipped kit family bm ∧
        bs = stage1CandidateSetup family bm ∧
        bst = stage1CandidateStart currentTime kit family bm ∧
        ∀ m ∈ ms, ¬ stage1Skipped kit family m →
          bst ≤ stage1CandidateStart currentTime kit family m) := by
  have h := findBestStage1_fold currentTime kit family ms Option.none []
    (fun _ => by simp) (fun bm bst bs h => Option.noConfusion h)
  simpa [findBestStage1] using h

/-- C2.  For the job at the head of the stage-1 queue: a machine with the
job's kit mounted is charged the 20-minute minor setup; a machine is skipped
as infeasible exactly when the kit currently resides on a different machine;
any other machine is charged the 65-minute major setup; among feasible
machines the one with the earliest job start time
(`max(clock, machine availableAt, kit availableAt) + setup`) is chosen; and
when no machine is feasible the job stays at the head and the stage-1
assignment attempt changes nothing. -/
theorem stage1_greedy_spec (jobs : List Job) (state : SimState)
    (eventQueue : List SimEvent) (jobId : Nat) (rest : List Nat) (job : Job)
    (kit : SetupKit)
    (hq : state.stage1Queue = jobId :: rest)
    (hj : jobsMapGet jobs jobId = some job)
    (hk : kitGet state.setupKits job.family = some kit)
    (hcoh : ∀ m ∈ state.machines, m.currentSetupKit = some job.family →
      kit.currentMachine = some m.id) :
    (∀ m ∈ state.machines.filter (fun m => m.stage == 1),
      m.currentSetupKit = some job.family →
        stage1CandidateSetup job.family m = SETUP_TIME_SMD_MINOR) ∧
    (∀ m ∈ state.machines.filter (fun m => m.stage == 1),
      (stage1Skipped kit job.family m ↔
        ∃ oid, kit.currentMachine = some oid ∧ oid ≠ m.id)) ∧
    (∀ m ∈ state.machines.filter (fun m => m.stage == 1),
      ¬ stage1Skipped kit job.family m → m.currentSetupKit ≠ some job.family →
        stage1CandidateSetup job.family m = SETUP_TIME_SMD_MAJOR) ∧
    (∀ bm bst bs,
      findBestStage1 state.currentTime kit job.family
          (state.machines.filter (fun m => m.stage == 1)) = some (bm, bst, bs) →
      bm ∈ state.machines.filter (fun m => m.stage == 1) ∧
        ¬ stage1Skipped kit job.family bm ∧
        bs = stage1CandidateSetup job.family bm ∧
        bst = max (max state.currentTime bm.availableAt) kit.availableAt + bs ∧
        ∀ m ∈ state.machines.filter (fun m => m.stage == 1),
          ¬ stage1Skipped kit job.family m →
            bst ≤ max (max state.currentTime m.availableAt) kit.availableAt
              + stage1CandidateSetup job.family m) ∧
    (findBestStage1 state.currentTime kit job.family
        (state.machines.filter (fun m => m.stage == 1)) = Option.none →
      tryAssignStage1Jobs jobs state eventQueue = (state, eventQueue)) := by
  obtain ⟨hfnone, hfsome⟩ := findBestStage1_spec state.currentTime kit job.family
    (state.machines.filter (fun m => m.stage == 1))
  refine ⟨?_, ?_, ?_, ?_, ?_⟩
  · intro m hm hmount
    simp [stage1CandidateSetup, hmount]
  · intro m hm
    constructor
    · intro hs
      obtain ⟨oid, hoid⟩ := Option.ne_none_iff_exists'.mp hs.2.1
      refine ⟨oid, hoid, fun h => hs.2.2 (by rw [hoid, h])⟩
    · rintro ⟨oid, hcm, hne⟩
      refine ⟨?_, ?_, ?_⟩
      · intro hmount
        have h := hcoh m (List.mem_filter.mp hm).1 hmount
        rw [hcm] at h
        injection h with h
        exact hne h
      · rw [hcm]; exact fun h => Option.noConfusion h
      · rw [hcm]
        intro h
        injection h with h
        exact hne h
  · intro m hm hns hmount
    simp [stage1CandidateSetup, hmount]
  · intro bm bst bs hfb
    obtain ⟨h1, h2, h3, h4, h5⟩ := hfsome bm bst bs hfb
    refine ⟨h1, h2, h3, ?_, ?_⟩
    · rw [h4, stage1CandidateStart, h3]
    · intro m hm hns
      have h := h5 m hm hns
      rwa [stage1CandidateStart] at h
  · intro hfb
    rw [tryAssignStage1Jobs, hq]
    simp only [tryAssignStage1Loop, hj, hk, hfb]

/-- C2 — witness: the fresh initial state for one job, hypotheses checked by
evaluation and the theorem applied there. -/
theorem stage1_greedy_spec_witness :
    (initState [wJob1] [1]).stage1Queue = 1 :: [] ∧
    jobsMapGet [wJob1] 1 = some wJob1 ∧
    kitGet (initState [wJob1] [1]).setupKits wJob1.family = some wKit7 ∧
    (∀ m ∈ (initState [wJob1] [1]).machines,
      m.currentSetupKit = some wJob1.family → wKit7.currentMachine = some m.id) ∧
    (∀ m ∈ (initState [wJob1] [1]).machines.filter (fun m => m.stage == 1),
      m.currentSetupKit = some wJob1.family →
        stage1CandidateSetup wJob1.family m = SETUP_TIME_SMD_MINOR) :=
  ⟨by decide, by decide, by decide, by decide,
   (stage1_greedy_spec [wJob1] (initState [wJob1] [1]) [] 1 [] wJob1 wKit7
      (by decide) (by decide) (by decide) (by decide)).1⟩

/-! ## Theorems: permutation preservation (C7) -/

theorem listSwap_perm (l : List Nat) (i j : Nat) (hi : i < l.length) (hj : j < l.length) :
    (listSwap l i j).Perm l := by
  rw [List.perm_iff_count]
  intro v
  have hvi : l.getD i 0 = l[i] := List.getD_eq_getElem l 0 hi
  have hvj : l.getD j 0 = l[j] := List.getD_eq_getElem l 0 hj
  have hj1 : j < (l.set i (l.getD j 0)).length := by simpa using hj
  have hc1 : List.count v (l.set i (l.getD j 0))
      = List.count v l - (if (l[i] == v) = true then 1 else 0)
        + (if (l.getD j 0 == v) = true then 1 else 0) :=
    List.count_set _ _ _ _ hi
  have hc1j : (l.set i (l.getD j 0))[j] = l[j] := by
    rw [List.getElem_set]
    split
    · exact hvj
    · rfl
  have hc2 : List.count v ((l.set i (l.getD j 0)).set j (l.getD i 0))
      = List.count v (l.set i (l.getD j 0))
          - (if ((l.set i (l.getD j 0))[j] == v) = true then 1 else 0)
        + (if (l.getD i 0 == v) = true then 1 else 0) :=
    List.count_set _ _ _ _ hj1
  rw [hc1j, hvi, hvj] at hc2
  rw [hvj] at hc1
  have hx : (if (l[i] == v) = true then 1 else 0) ≤ List.count v l := by
    split
    · rename_i hb
      have : v ∈ l := by
        have := beq_iff_eq.mp hb; rw [← this]; exact List.getElem_mem hi
      exact List.count_pos_iff.mpr this
    · exact Nat.zero_le _
  show List.count v ((l.set i (l.getD j 0)).set j (l.getD i 0)) = List.count v l
  rw [hvi, hvj]
  by_cases hbi : (l[i] == v) = true <;> by_cases hbj : (l[j] == v) = true <;>
    simp only [hbi, hbj, eq_self_iff_true, if_true, if_false,
      Bool.false_eq_true] at hc1 hc2 hx <;>
    omega

theorem swapMutation_perm (c : List Nat) (i j : Nat) (hi : i < c.length)
    (hj : j < c.length) : (swapMutation c i j).Perm c :=
  listSwap_perm c i j hi hj

theorem insertMutation_perm (l : List Nat) (i j : Nat) (hi : i < l.length)
    (hj : j < l.length) : (insertMutation l i j).Perm l := by
  have hgene : l.getD i 0 = l[i] := List.getD_eq_getElem l 0 hi
  have hlen : j ≤ (l.eraseIdx i).length := by
    rw [List.length_eraseIdx, if_pos hi]
    omega
  have h1 : (List.insertIdx j (l.getD i 0) (l.eraseIdx i)).Perm
      (l.getD i 0 :: l.eraseIdx i) :=
    List.perm_insertIdx _ _ hlen
  have h3 : l.take i ++ l[i] :: l.drop (i + 1) = l := by
    rw [List.get_drop_eq_drop l i hi, List.take_append_drop]
  have h2 : (l[i] :: l.eraseIdx i).Perm l := by
    rw [List.eraseIdx_eq_take_drop_succ]
    refine List.Perm.trans List.perm_middle.symm ?_
    rw [h3]
  show (List.insertIdx j (l.getD i 0) (l.eraseIdx i)).Perm l
  rw [hgene]
  rw [hgene] at h1
  exact h1.trans h2

theorem somesVals_length_add_noneCount (child : List (Option Nat)) :
    (somesVals child).length + noneCount child = child.length := by
  induction child with
  | nil => simp [somesVals, noneCount]
  | cons o t ih =>
    cases o with
    | none =>
      have h1 : somesVals (Option.none :: t) = somesVals t := by simp [somesVals]
      have h2 : noneCount (Option.none :: t) = noneCount t + 1 := by
        simp [noneCount, List.countP_cons]
      rw [h1, h2, List.length_cons]
      omega
    | some v =>
      have h1 : somesVals (some v :: t) = v :: somesVals t := by simp [somesVals]
      have h2 : noneCount (some v :: t) = noneCount t := by
        simp [noneCount, List.countP_cons]
      rw [h1, h2, List.length_cons, List.length_cons]
      omega

theorem mem_somesVals {child : List (Option Nat)} {v : Nat} :
    v ∈ somesVals child ↔ some v ∈ child := by
  rw [somesVals, List.mem_filterMap]
  constructor
  · rintro ⟨a, ha, rfl⟩
    exact ha
  · intro h
    exact ⟨some v, h, rfl⟩

theorem somesVals_set (child : List (Option Nat)) (ci : Nat) (v : Nat)
    (hci : ci < child.length) (hnone : child[ci] = Option.none) :
    (somesVals (child.set ci (some v))).Perm (v :: somesVals child) := by
  have hdec0 : child.drop ci = child[ci] :: child.drop (ci + 1) :=
    (List.get_drop_eq_drop child ci hci).symm
  have hdec : child = child.take ci ++ Option.none :: child.drop (ci + 1) := by
    conv_lhs => rw [← List.take_append_drop ci child]
    rw [hdec0, hnone]
  have hset : child.set ci (some v)
      = child.take ci ++ some v :: child.drop (ci + 1) := by
    rw [List.set_eq_take_append_cons_drop, if_pos hci]
  rw [hset]
  conv_rhs => rw [hdec]
  simp only [somesVals, List.filterMap_append, List.filterMap_cons_some,
    List.filterMap_cons_none]
  exact List.perm_middle

theorem noneCount_set_some (child : List (Option Nat)) (ci : Nat) (v : Nat)
    (hci : ci < child.length) (hnone : child[ci] = Option.none) :
    noneCount (child.set ci (some v)) + 1 = noneCount child := by
  have h := List.countP_set (fun o => o.isNone) child ci (some v) hci
  rw [hnone] at h
  simp only [Option.isNone_none, Option.isNone_some, eq_self_iff_true, if_true,
    Bool.false_eq_true, if_false] at h
  have hpos : 0 < noneCount child := by
    rw [noneCount, List.countP_pos_iff]
    exact ⟨Option.none, hnone ▸ List.getElem_mem hci, rfl⟩
  rw [noneCount, noneCount] at *
  omega

theorem cyc_index_inj (size ci : Nat) (hsz : 0 < size) (u1 u2 : Nat)
    (h1 : u1 < size) (h2 : u2 < size)
    (h : (ci + u1) % size = (ci + u2) % size) : u1 = u2 := by
  have hmod : u1 % size = u2 % size :=
    Nat.ModEq.add_left_cancel' ci h
  rwa [Nat.mod_eq_of_lt h1, Nat.mod_eq_of_lt h2] at hmod

theorem nonesCyc_set (size ci : Nat) (child : List (Option Nat)) (v : Nat)
    (hsz : 0 < size) (hlen : child.length = size) (hci : ci < size)
    (hcyc : NonesCyc size ci child) (hpos : 0 < noneCount child) :
    NonesCyc size ((ci + 1) % size) (child.set ci (some v)) := by
  have hci' : ci < child.length := by rwa [hlen]
  have hnone : child[ci] = Option.none := by
    have := (hcyc ci hci').mpr ⟨0, hpos, by rw [Nat.add_zero, Nat.mod_eq_of_lt hci]⟩
    simpa using this
  have hcnt := noneCount_set_some child ci v hci' hnone
  have hcntle : noneCount child ≤ size := by
    rw [← hlen]; exact List.countP_le_length _
  intro i hi
  have hi' : i < child.length := by simpa using hi
  have hisz : i < size := by rw [← hlen]; exact hi'
  have hget : (child.set ci (some v))[i] = if ci = i then some v else child[i] :=
    List.getElem_set _
  constructor
  · intro h0
    rw [List.get_eq_getElem] at h0
    simp only [hget] at h0
    by_cases hcii : ci = i
    · rw [if_pos hcii] at h0; exact Option.noConfusion h0
    · rw [if_neg hcii] at h0
      have hiff := (hcyc i hi').mp (by rw [List.get_eq_getElem]; exact h0)
      obtain ⟨u, hu, hiu⟩ := hiff
      have hu0 : u ≠ 0 := by
        intro h'
        rw [h', Nat.add_zero, Nat.mod_eq_of_lt hci] at hiu
        exact hcii hiu.symm
      refine ⟨u - 1, by omega, ?_⟩
      rw [Nat.mod_add_mod]
      rw [hiu]
      congr 1
      omega
  · rintro ⟨u, hu, hiu⟩
    rw [Nat.mod_add_mod] at hiu
    rw [List.get_eq_getElem]
    simp only [hget]
    have hucnt : u + 1 < noneCount child := by omega
    have hiu' : i = (ci + (u + 1)) % size := by
      rw [hiu]; congr 1; omega
    have hcii : ci ≠ i := by
      intro h'
      have heq : (ci + 0) % size = (ci + (u + 1)) % size := by
        conv_lhs => rw [Nat.add_zero, Nat.mod_eq_of_lt hci, h', hiu']
      have := cyc_index_inj size ci hsz 0 (u + 1) hsz (by omega) heq
      omega
    rw [if_neg hcii]
    have := (hcyc i hi').mpr ⟨u + 1, hucnt, hiu'⟩
    rw [List.get_eq_getElem] at this
    exact this

theorem oxFill_spec (S : List Nat) (hS : S.Nodup) (size : Nat) (hsz : 0 < size)
    (hSlen : S.length = size) :
    ∀ (scan : List Nat) (child : List (Option Nat)) (ci : Nat),
      ci < size → child.length = size → NonesCyc size ci child →
      (somesVals child).Nodup → (∀ v ∈ somesVals child, v ∈ S) →
      (∀ v ∈ scan, v ∈ S) →
      (∀ v ∈ S, v ∈ somesVals child ∨ v ∈ scan) →
      (somesVals (oxFill size scan ci child)).Perm S ∧
        ∀ o ∈ oxFill size scan ci child, o.isSome := by
  intro scan
  induction scan with
  | nil =>
    intro child ci hci hlen hcyc hnd hsub _hscan hcov
    rw [oxFill]
    have hSsub : S ⊆ somesVals child := fun v hv => (hcov v hv).resolve_right (by simp)
    have hperm : (somesVals child).Perm S :=
      (hnd.subperm (fun v hv => hsub v hv)).antisymm (hS.subperm hSsub)
    refine ⟨hperm, ?_⟩
    have hlen2 : (somesVals child).length = size := by rw [hperm.length_eq, hSlen]
    have hcnt : noneCount child = 0 := by
      have := somesVals_length_add_noneCount child
      omega
    intro o ho
    have hno := List.countP_eq_zero.mp hcnt o ho
    cases o
    · simp at hno
    · rfl
  | cons v scan ih =>
    intro child ci hci hlen hcyc hnd hsub hscan hcov
    rw [oxFill]
    by_cases hany : child.any (fun o => o.isNone) = true
    · rw [if_pos hany]
      by_cases hcont : child.contains (some v) = true
      · rw [if_pos hcont]
        refine ih child ci hci hlen hcyc hnd hsub
          (fun w hw => hscan w (List.mem_cons_of_mem _ hw)) ?_
        intro w hw
        rcases hcov w hw with h | h
        · exact Or.inl h
        · rcases List.mem_cons.mp h with rfl | h
          · exact Or.inl (mem_somesVals.mpr (by simpa using hcont))
          · exact Or.inr h
      · rw [if_neg hcont]
        have hpos : 0 < noneCount child := by
          rw [noneCount, List.countP_pos_iff]
          exact List.any_eq_true.mp hany
        have hci' : ci < child.length := by rwa [hlen]
        have hnone : child[ci] = Option.none := by
          have h0 := (hcyc ci hci').mpr
            ⟨0, hpos, by rw [Nat.add_zero, Nat.mod_eq_of_lt hci]⟩
          simpa using h0
        have hvnotin : v ∉ somesVals child := by
          intro hv
          exact hcont (by simpa using mem_somesVals.mp hv)
        have hcyc' := nonesCyc_set size ci child v hsz hlen hci hcyc hpos
        have hperm' := somesVals_set child ci v hci' hnone
        have hnd' : (somesVals (child.set ci (some v))).Nodup :=
          (hperm'.nodup_iff).mpr (List.nodup_cons.mpr ⟨hvnotin, hnd⟩)
        have hsub' : ∀ w ∈ somesVals (child.set ci (some v)), w ∈ S := by
          intro w hw
          rcases List.mem_cons.mp (hperm'.mem_iff.mp hw) with rfl | h
          · exact hscan w (List.mem_cons_self _ _)
          · exact hsub w h
        have hcov' : ∀ w ∈ S, w ∈ somesVals (child.set ci (some v)) ∨ w ∈ scan := by
          intro w hw
          rcases hcov w hw with h | h
          · exact Or.inl (hperm'.mem_iff.mpr (List.mem_cons_of_mem _ h))
          · rcases List.mem_cons.mp h with rfl | h
            · exact Or.inl (hperm'.mem_iff.mpr (List.mem_cons_self _ _))
            · exact Or.inr h
        exact ih (child.set ci (some v)) ((ci + 1) % size) (Nat.mod_lt _ hsz)
          (by simpa using hlen) hcyc' hnd' hsub'
          (fun w hw => hscan w (List.mem_cons_of_mem _ hw)) hcov'
    · rw [if_neg hany]
      have hcnt : noneCount child = 0 := by
        rw [noneCount, List.countP_eq_zero]
        intro o ho hno
        exact hany (List.any_eq_true.mpr ⟨o, ho, hno⟩)
      have hlen2 : (somesVals child).length = size := by
        have := somesVals_length_add_noneCount child
        omega
      have hperm : (somesVals child).Perm S :=
        (hnd.subperm (fun w hw => hsub w hw)).perm_of_length_le
          (le_of_eq (hSlen.trans hlen2.symm))
      refine ⟨hperm, ?_⟩
      intro o ho
      have hno := List.countP_eq_zero.mp hcnt o ho
      cases o
      · simp at hno
      · rfl

theorem filterMap_interval (s e : Nat) (v : Nat → Nat) (l : List Nat) :
    (l.filterMap (fun i => if s ≤ i ∧ i ≤ e then some (v i) else Option.none))
      = (l.filter (fun i => decide (s ≤ i ∧ i ≤ e))).map v := by
  induction l with
  | nil => simp
  | cons a t ih =>
    by_cases hP : s ≤ a ∧ a ≤ e
    · simp [List.filterMap_cons, List.filter_cons, hP, ih]
    · simp [List.filterMap_cons, List.filter_cons, hP, ih]

theorem rangeFilter_interval_length (s e : Nat) (n : Nat) :
    ((List.range n).filter (fun i => decide (s ≤ i ∧ i ≤ e))).length
      = min n (e + 1) - min n s := by
  induction n with
  | zero => simp
  | succ n ihn =>
    rw [List.range_succ, List.filter_append, List.length_append, ihn]
    by_cases hP : s ≤ n ∧ n ≤ e
    · have hsing : (List.filter (fun i => decide (s ≤ i ∧ i ≤ e)) [n]).length = 1 := by
        simp [List.filter, hP]
      rw [hsing]
      omega
    · have hsing : (List.filter (fun i => decide (s ≤ i ∧ i ≤ e)) [n]).length = 0 := by
        simp [List.filter, hP]
      rw [hsing]
      omega

theorem oxChild0_length (p1 : List Nat) (s e : Nat) :
    (oxChild0 p1 s e).length = p1.length := by
  simp [oxChild0]

theorem oxChild0_somesVals (p1 : List Nat) (s e : Nat) :
    somesVals (oxChild0 p1 s e)
      = ((List.range p1.length).filter (fun i => decide (s ≤ i ∧ i ≤ e))).map
          (fun i => p1.getD i 0) := by
  rw [somesVals, oxChild0, List.filterMap_map]
  have hcomp : (id ∘ fun i => if s ≤ i ∧ i ≤ e then some (p1.getD i 0) else Option.none)
      = fun i => if s ≤ i ∧ i ≤ e then some (p1.getD i 0) else Option.none := rfl
  rw [hcomp, filterMap_interval]

theorem oxChild0_getElem (p1 : List Nat) (s e : Nat) (i : Nat)
    (hi : i < (oxChild0 p1 s e).length) :
    (oxChild0 p1 s e)[i]
      = if s ≤ i ∧ i ≤ e then some (p1.getD i 0) else Option.none := by
  have hi' : i < (List.range p1.length).length := by
    simpa [oxChild0] using hi
  simp only [oxChild0, List.getElem_map, List.getElem_range]

/-- The complement of `[s, e]` inside `[0, size)` is the cyclic interval of
length `size − (e + 1 − s)` starting at `(e + 1) % size`. -/
theorem cyc_complement (s e size i : Nat) (hs : s ≤ e) (he : e < size)
    (hi : i < size) :
    (¬ (s ≤ i ∧ i ≤ e)) ↔
      ∃ u < size - (e + 1 - s), i = ((e + 1) % size + u) % size := by
  constructor
  · intro h
    rcases Nat.lt_or_ge i s with hlt | hge
    · refine ⟨i + size - (e + 1), by omega, ?_⟩
      rw [Nat.mod_add_mod]
      have harg : e + 1 + (i + size - (e + 1)) = i + size := by omega
      rw [harg, Nat.add_mod_right, Nat.mod_eq_of_lt hi]
    · have hgt : e < i := by omega
      refine ⟨i - (e + 1), by omega, ?_⟩
      rw [Nat.mod_add_mod]
      have harg : e + 1 + (i - (e + 1)) = i := by omega
      rw [harg, Nat.mod_eq_of_lt hi]
  · rintro ⟨u, hu, hiu⟩
    rw [Nat.mod_add_mod] at hiu
    rcases Nat.lt_or_ge (e + 1 + u) size with hcase | hcase
    · rw [Nat.mod_eq_of_lt hcase] at hiu
      omega
    · have h2 : e + 1 + u - size < size := by omega
      have harg : e + 1 + u = (e + 1 + u - size) + size := by omega
      rw [harg, Nat.add_mod_right, Nat.mod_eq_of_lt h2] at hiu
      omega

theorem oxChild0_nonesCyc (p1 : List Nat) (s e : Nat) (hs : s ≤ e)
    (he : e < p1.length) :
    NonesCyc p1.length ((e + 1) % p1.length) (oxChild0 p1 s e) := by
  have hsz : 0 < p1.length := Nat.lt_of_le_of_lt (Nat.zero_le e) he
  have hcnt : noneCount (oxChild0 p1 s e) = p1.length - (e + 1 - s) := by
    have h1 := somesVals_length_add_noneCount (oxChild0 p1 s e)
    rw [oxChild0_length, oxChild0_somesVals, List.length_map,
      rangeFilter_interval_length] at h1
    omega
  intro i hi
  have hi' : i < p1.length := by
    rw [← oxChild0_length p1 s e]
    exact hi
  rw [List.get_eq_getElem, oxChild0_getElem p1 s e i hi, hcnt]
  constructor
  · intro h0
    have hP : ¬ (s ≤ i ∧ i ≤ e) := by
      intro hP
      rw [if_pos hP] at h0
      exact Option.noConfusion h0
    exact (cyc_complement s e p1.length i hs he hi').mp hP
  · intro hex
    have hP := (cyc_complement s e p1.length i hs he hi').mpr hex
    rw [if_neg hP]

theorem allSome_map_getD (r : List (Option Nat)) (h : ∀ o ∈ r, o.isSome) :
    r.map (fun o => o.getD 0) = somesVals r := by
  induction r with
  | nil => simp [somesVals]
  | cons o t iht =>
    cases o with
    | none =>
      have h0 := h _ (List.mem_cons_self _ _)
      simp at h0
    | some v =>
      have hrest := iht (fun o ho => h o (List.mem_cons_of_mem _ ho))
      simp only [somesVals] at hrest ⊢
      simp [hrest]

/-- C7 (crossover part).  When the parents are permutations of the same
duplicate-free id list, `orderCrossover` returns a permutation of that list,
for every admissible pair of cut indices. -/
theorem orderCrossover_perm (p1 p2 : List Nat) (s e : Nat) (hnd : p1.Nodup)
    (hperm : p2.Perm p1) (hse : s ≤ e) (he : e < p1.length) :
    (orderCrossover p1 p2 s e).Perm p1 := by
  have hsz : 0 < p1.length := Nat.lt_of_le_of_lt (Nat.zero_le e) he
  have hlen2 : p2.length = p1.length := hperm.length_eq
  have hrotlen : (p2.rotate ((e + 1) % p1.length)).length = p2.length :=
    List.length_rotate p2 _
  have hscan_eq : (p2.rotate ((e + 1) % p1.length)).take p1.length
      = p2.rotate ((e + 1) % p1.length) :=
    List.take_of_length_le (by rw [hrotlen, hlen2])
  have hnd0 : (somesVals (oxChild0 p1 s e)).Nodup := by
    rw [oxChild0_somesVals]
    refine List.Nodup.map_on ?_ ((List.nodup_range p1.length).filter _)
    intro x hx y hy hxy
    have hxr : x < p1.length := List.mem_range.mp (List.mem_of_mem_filter hx)
    have hyr : y < p1.length := List.mem_range.mp (List.mem_of_mem_filter hy)
    rw [List.getD_eq_getElem p1 0 hxr, List.getD_eq_getElem p1 0 hyr] at hxy
    have hget : p1.get ⟨x, hxr⟩ = p1.get ⟨y, hyr⟩ := by
      simpa [List.get_eq_getElem] using hxy
    have hfin := (hnd.get_inj_iff).mp hget
    exact congrArg Fin.val hfin
  have hsub0 : ∀ v ∈ somesVals (oxChild0 p1 s e), v ∈ p1 := by
    intro v hv
    rw [oxChild0_somesVals] at hv
    obtain ⟨i, hi, rfl⟩ := List.mem_map.mp hv
    have hir : i < p1.length := List.mem_range.mp (List.mem_of_mem_filter hi)
    rw [List.getD_eq_getElem p1 0 hir]
    exact List.getElem_mem hir
  have hscan_sub : ∀ v ∈ (p2.rotate ((e + 1) % p1.length)).take p1.length, v ∈ p1 := by
    intro v hv
    rw [hscan_eq] at hv
    exact hperm.mem_iff.mp ((List.rotate_perm p2 _).mem_iff.mp hv)
  have hcov : ∀ v ∈ p1, v ∈ somesVals (oxChild0 p1 s e)
      ∨ v ∈ (p2.rotate ((e + 1) % p1.length)).take p1.length := by
    intro v hv
    refine Or.inr ?_
    rw [hscan_eq]
    exact (List.rotate_perm p2 _).mem_iff.mpr (hperm.mem_iff.mpr hv)
  have main := oxFill_spec p1 hnd p1.length hsz rfl
    ((p2.rotate ((e + 1) % p1.length)).take p1.length)
    (oxChild0 p1 s e) ((e + 1) % p1.length)
    (Nat.mod_lt _ hsz) (oxChild0_length p1 s e)
    (oxChild0_nonesCyc p1 s e hse he) hnd0 hsub0 hscan_sub hcov
  show ((oxFill p1.length ((p2.rotate ((e + 1) % p1.length)).take p1.length)
      ((e + 1) % p1.length) (oxChild0 p1 s e)).map (fun o => o.getD 0)).Perm p1
  rw [allSome_map_getD _ main.2]
  exact main.1

theorem randIndex_lt (g : Nat → ℚ) (n k : Nat) (hk : 0 < k)
    (h0 : 0 ≤ g n) (h1 : g n < 1) : randIndex g n k < k := by
  rw [randIndex]
  have hkq : (0 : ℚ) < (k : ℚ) := by exact_mod_cast hk
  have h2 : g n * (k : ℚ) < (k : ℚ) := by
    calc g n * (k : ℚ) < 1 * (k : ℚ) := mul_lt_mul_of_pos_right h1 hkq
      _ = (k : ℚ) := one_mul _
  have h3 : ⌊g n * (k : ℚ)⌋ < (k : ℤ) := Int.floor_lt.mpr (by push_cast; exact h2)
  omega

theorem fisherYatesAux_perm (g : Nat → ℚ) (hg : ∀ m, 0 ≤ g m ∧ g m < 1) :
    ∀ (i n : Nat) (l : List Nat), i < l.length →
      ((fisherYatesAux g i n l).1).Perm l := by
  intro i
  induction i with
  | zero =>
    intro n l _hi
    rw [fisherYatesAux]
  | succ i ihi =>
    intro n l hi
    rw [fisherYatesAux]
    have hlen : (listSwap l (i + 1) (randIndex g n (i + 2))).length = l.length := by
      simp [listSwap]
    have hj : randIndex g n (i + 2) < i + 2 :=
      randIndex_lt g n (i + 2) (by omega) (hg n).1 (hg n).2
    have hjlt : randIndex g n (i + 2) < l.length := by omega
    have hswap := listSwap_perm l (i + 1) (randIndex g n (i + 2)) hi hjlt
    have hrec := ihi (n + 1) (listSwap l (i + 1) (randIndex g n (i + 2)))
      (by rw [hlen]; omega)
    exact hrec.trans hswap

theorem fisherYates_perm (g : Nat → ℚ) (hg : ∀ m, 0 ≤ g m ∧ g m < 1)
    (n : Nat) (l : List Nat) : ((fisherYates g n l).1).Perm l := by
  rw [fisherYates]
  rcases Nat.eq_zero_or_pos l.length with h | h
  · have hl : l = [] := List.length_eq_zero.mp h
    subst hl
    exact List.Perm.refl _
  · exact fisherYatesAux_perm g hg (l.length - 1) n l (by omega)

theorem tournamentPicks_spec (population : List Individual) (g : Nat → ℚ)
    (hg : ∀ m, 0 ≤ g m ∧ g m < 1) (hne : population ≠ []) :
    ∀ (k n : Nat), (∀ x ∈ (tournamentPicks population g k n).1, x ∈ population) ∧
      ((tournamentPicks population g k n).1).length = k := by
  intro k
  induction k with
  | zero => intro n; simp [tournamentPicks]
  | succ k ihk =>
    intro n
    rw [tournamentPicks]
    constructor
    · intro x hx
      rcases List.mem_cons.mp hx with rfl | hx
      · have hlen : 0 < population.length := List.length_pos.mpr hne
        have hidx := randIndex_lt g n population.length hlen (hg n).1 (hg n).2
        rw [List.getD_eq_getElem population default hidx]
        exact List.getElem_mem hidx
      · exact (ihk (n + 1)).1 x hx
    · simp [(ihk (n + 1)).2]

theorem foldlMinFit_mem (rest : List Individual) :
    ∀ acc : Individual,
      (rest.foldl (fun best c => if c.fitness < best.fitness then c else best) acc) = acc
      ∨ (rest.foldl (fun best c => if c.fitness < best.fitness then c else best) acc)
          ∈ rest := by
  induction rest with
  | nil => intro acc; simp
  | cons c cs ih =>
    intro acc
    simp only [List.foldl_cons]
    by_cases hc : c.fitness < acc.fitness
    · rw [if_pos hc]
      rcases ih c with h | h
      · exact Or.inr (by rw [h]; exact List.mem_cons_self c cs)
      · exact Or.inr (List.mem_cons_of_mem c h)
    · rw [if_neg hc]
      rcases ih acc with h | h
      · exact Or.inl h
      · exact Or.inr (List.mem_cons_of_mem c h)

theorem tournamentSelection_mem (population : List Individual) (ts : Nat)
    (g : Nat → ℚ) (hg : ∀ m, 0 ≤ g m ∧ g m < 1) (hne : population ≠ [])
    (hts : 0 < ts) (n : Nat) :
    (tournamentSelection population ts g n).1 ∈ population := by
  obtain ⟨hsub, hlen⟩ := tournamentPicks_spec population g hg hne ts n
  show ((reduceMinFitness (tournamentPicks population g ts n).1).getD default)
      ∈ population
  cases hp : (tournamentPicks population g ts n).1 with
  | nil => rw [hp] at hlen; simp at hlen; omega
  | cons a t =>
    rw [reduceMinFitness]
    simp only [Option.getD_some]
    rcases foldlMinFit_mem t a with h | h
    · rw [h]
      exact hsub a (by rw [hp]; exact List.mem_cons_self a t)
    · exact hsub _ (by rw [hp]; exact List.mem_cons_of_mem a h)

theorem swapMutationR_perm (g : Nat → ℚ) (hg : ∀ m, 0 ≤ g m ∧ g m < 1) (n : Nat)
    (c : List Nat) (hc : 0 < c.length) : ((swapMutationR g n c).1).Perm c :=
  swapMutation_perm c _ _ (randIndex_lt g n _ hc (hg n).1 (hg n).2)
    (randIndex_lt g (n + 1) _ hc (hg (n + 1)).1 (hg (n + 1)).2)

theorem insertMutationR_perm (g : Nat → ℚ) (hg : ∀ m, 0 ≤ g m ∧ g m < 1) (n : Nat)
    (c : List Nat) (hc : 0 < c.length) : ((insertMutationR g n c).1).Perm c :=
  insertMutation_perm c _ _ (randIndex_lt g n _ hc (hg n).1 (hg n).2)
    (randIndex_lt g (n + 1) _ hc (hg (n + 1)).1 (hg (n + 1)).2)

theorem orderCrossoverR_perm (g : Nat → ℚ) (hg : ∀ m, 0 ≤ g m ∧ g m < 1)
    (n : Nat) (base p1c p2c : List Nat) (hbase : base.Nodup) (hbne : base ≠ [])
    (h1 : p1c.Perm base) (h2 : p2c.Perm base) :
    ((orderCrossoverR g n p1c p2c).1).Perm base := by
  have hlen : 0 < p1c.length := by
    rw [h1.length_eq]
    exact List.length_pos.mpr hbne
  have hs : randIndex g n p1c.length < p1c.length :=
    randIndex_lt g n _ hlen (hg n).1 (hg n).2
  have hrem : 0 < p1c.length - randIndex g n p1c.length := by omega
  have he0 : randIndex g (n + 1) (p1c.length - randIndex g n p1c.length)
      < p1c.length - randIndex g n p1c.length :=
    randIndex_lt g (n + 1) _ hrem (hg (n + 1)).1 (hg (n + 1)).2
  have hnd1 : p1c.Nodup := (h1.nodup_iff).mpr hbase
  have hperm21 : p2c.Perm p1c := h2.trans h1.symm
  have hcross := orderCrossover_perm p1c p2c
    (randIndex g n p1c.length)
    (randIndex g (n + 1) (p1c.length - randIndex g n p1c.length)
      + randIndex g n p1c.length)
    hnd1 hperm21 (Nat.le_add_left _ _) (by omega)
  exact hcross.trans h1

theorem mkOffspring_perm (jobs : List Job) (cfg : GAConfig) (rate : ℚ)
    (base : List Nat) (population : List Individual) (g : Nat → ℚ) (n : Nat)
    (hg : ∀ m, 0 ≤ g m ∧ g m < 1) (hbase : base.Nodup) (hbne : base ≠ [])
    (hne : population ≠ []) (hts : 0 < cfg.tournamentSize)
    (hpop : PopPerm base population) :
    ((mkOffspring jobs cfg rate population g n).1).chromosome.Perm base := by
  have hc1 : (tournamentSelection population cfg.tournamentSize g n).1.chromosome.Perm
      base :=
    hpop _ (tournamentSelection_mem population cfg.tournamentSize g hg hne hts n)
  have hc2 : (tournamentSelection population cfg.tournamentSize g
      (tournamentSelection population cfg.tournamentSize g n).2).1.chromosome.Perm
      base :=
    hpop _ (tournamentSelection_mem population cfg.tournamentSize g hg hne hts _)
  simp only [mkOffspring, mkIndividual]
  set off0 := (if g (tournamentSelection population cfg.tournamentSize g
          (tournamentSelection population cfg.tournamentSize g n).2).2
          < cfg.crossoverRate then
        orderCrossoverR g ((tournamentSelection population cfg.tournamentSize g
            (tournamentSelection population cfg.tournamentSize g n).2).2 + 1)
          (tournamentSelection population cfg.tournamentSize g n).1.chromosome
          (tournamentSelection population cfg.tournamentSize g
            (tournamentSelection population cfg.tournamentSize g n).2).1.chromosome
      else
        ((tournamentSelection population cfg.tournamentSize g n).1.chromosome,
          (tournamentSelection population cfg.tournamentSize g
            (tournamentSelection population cfg.tournamentSize g n).2).2 + 1))
    with hoff0def
  have hoff0 : off0.1.Perm base := by
    rw [hoff0def]
    split
    · exact orderCrossoverR_perm g hg _ base _ _ hbase hbne hc1 hc2
    · exact hc1
  have hlen0 : 0 < off0.1.length := by
    rw [hoff0.length_eq]
    exact List.length_pos.mpr hbne
  split
  · split
    · exact (insertMutationR_perm g hg _ _ hlen0).trans hoff0
    · exact (swapMutationR_perm g hg _ _ hlen0).trans hoff0
  · exact hoff0

theorem fillOffspring_popPerm (jobs : List Job) (cfg : GAConfig) (rate : ℚ)
    (base : List Nat) (population : List Individual) (g : Nat → ℚ)
    (hg : ∀ m, 0 ≤ g m ∧ g m < 1) (hbase : base.Nodup) (hbne : base ≠ [])
    (hne : population ≠ []) (hts : 0 < cfg.tournamentSize)
    (hpop : PopPerm base population) :
    ∀ (k n : Nat) (newPop : List Individual), PopPerm base newPop →
      PopPerm base (fillOffspring jobs cfg rate population g k n newPop).1 := by
  intro k
  induction k with
  | zero =>
    intro n newPop h
    rw [fillOffspring]
    exact h
  | succ k ihk =>
    intro n newPop h
    rw [fillOffspring]
    apply ihk
    intro ind hind
    rcases List.mem_append.mp hind with h1 | h1
    · exact h ind h1
    · rw [List.mem_singleton.mp h1]
      exact mkOffspring_perm jobs cfg rate base population g n hg hbase hbne hne hts hpop

theorem nextGeneration_popPerm (jobs : List Job) (cfg : GAConfig) (rate : ℚ)
    (base : List Nat) (sorted : List Individual) (g : Nat → ℚ) (n : Nat)
    (hg : ∀ m, 0 ≤ g m ∧ g m < 1) (hbase : base.Nodup) (hbne : base ≠ [])
    (hne : sorted ≠ []) (hts : 0 < cfg.tournamentSize)
    (hpop : PopPerm base sorted) :
    PopPerm base (nextGeneration jobs cfg rate sorted g n).1 ∧
      (nextGeneration jobs cfg rate sorted g n).1 ≠ [] := by
  have helite : PopPerm base
      (sorted.take (eliteCount cfg.populationSize cfg.elitismRate)) :=
    fun ind hind => hpop ind (List.mem_of_mem_take hind)
  constructor
  · exact fillOffspring_popPerm jobs cfg rate base sorted g hg hbase hbne hne hts hpop
      _ n _ helite
  · obtain ⟨tail, htail⟩ := fillOffspring_append jobs cfg rate sorted g
      (cfg.populationSize
        - (sorted.take (eliteCount cfg.populationSize cfg.elitismRate)).length) n
      (sorted.take (eliteCount cfg.populationSize cfg.elitismRate))
    show (fillOffspring jobs cfg rate sorted g _ n _).1 ≠ []
    rw [htail]
    have helne : sorted.take (eliteCount cfg.populationSize cfg.elitismRate) ≠ [] := by
      rw [Ne, List.take_eq_nil_iff]
      push_neg
      have hk : 0 < eliteCount cfg.populationSize cfg.elitismRate :=
        Nat.lt_of_lt_of_le Nat.zero_lt_one (le_max_left 1 _)
      exact ⟨by omega, hne⟩
    intro hcon
    exact helne (List.append_eq_nil.mp hcon).1

theorem gaStep_popPerm (jobs : List Job) (cfg : GAConfig)
    (diversityFn : List Individual → ℚ) (generation : Nat) (base : List Nat)
    (population : List Individual) (fitnessHistory : List ℚ) (g : Nat → ℚ) (n : Nat)
    (hg : ∀ m, 0 ≤ g m ∧ g m < 1) (hbase : base.Nodup) (hbne : base ≠ [])
    (hne : population ≠ []) (hts : 0 < cfg.tournamentSize)
    (hpop : PopPerm base population) :
    PopPerm base (gaStep jobs cfg diversityFn generation population fitnessHistory g n).1 ∧
      (gaStep jobs cfg diversityFn generation population fitnessHistory g n).1 ≠ [] := by
  have hps : sortPop population ≠ [] := by
    intro h
    have hl := (sortPop_perm population).length_eq
    rw [h] at hl
    exact hne (List.length_eq_zero.mp hl.symm)
  have hpps : PopPerm base (sortPop population) :=
    fun ind h => hpop ind ((sortPop_perm population).mem_iff.mp h)
  simp only [gaStep]
  exact nextGeneration_popPerm jobs cfg _ base (sortPop population) g n hg hbase hbne
    hps hts hpps

theorem gaRun_popPerm (jobs : List Job) (cfg : GAConfig)
    (diversityFn : List Individual → ℚ) (g : Nat → ℚ) (base : List Nat)
    (hg : ∀ m, 0 ≤ g m ∧ g m < 1) (hbase : base.Nodup) (hbne : base ≠ [])
    (hts : 0 < cfg.tournamentSize) :
    ∀ (k generation : Nat) (population : List Individual) (hist : List ℚ) (n : Nat),
      PopPerm base population → population ≠ [] →
      ∀ q ∈ gaRun jobs cfg diversityFn g k generation population hist n,
        PopPerm base q := by
  intro k
  induction k with
  | zero =>
    intro gen pop hist n hp hne q hq
    rw [gaRun] at hq
    rw [List.mem_singleton.mp hq]
    exact hp
  | succ k ihk =>
    intro gen pop hist n hp hne q hq
    rw [gaRun] at hq
    rcases List.mem_cons.mp hq with rfl | hq
    · exact hp
    · obtain ⟨hstep, hsne⟩ := gaStep_popPerm jobs cfg diversityFn gen base pop hist g n
        hg hbase hbne hne hts hp
      exact ihk (gen + 1) _ _ _ hstep hsne q hq

theorem createInitialPopulationAux_popPerm (jobs : List Job) (base : List Nat)
    (w : ℚ) (g : Nat → ℚ) (hg : ∀ m, 0 ≤ g m ∧ g m < 1) :
    ∀ (k n : Nat) (pop : List Individual), PopPerm base pop →
      PopPerm base (createInitialPopulationAux jobs base w g k n pop).1 ∧
      ((createInitialPopulationAux jobs base w g k n pop).1).length
        = pop.length + k := by
  intro k
  induction k with
  | zero =>
    intro n pop h
    rw [createInitialPopulationAux]
    exact ⟨h, rfl⟩
  | succ k ihk =>
    intro n pop h
    rw [createInitialPopulationAux]
    have hnew : PopPerm base (pop ++ [mkIndividual jobs w (fisherYates g n base).1]) := by
      intro ind hind
      rcases List.mem_append.mp hind with h1 | h1
      · exact h ind h1
      · rw [List.mem_singleton.mp h1]
        exact fisherYates_perm g hg n base
    obtain ⟨h1, h2⟩ := ihk (fisherYates g n base).2 _ hnew
    refine ⟨h1, ?_⟩
    rw [h2]
    simp
    omega

theorem createInitialPopulation_popPerm (jobs : List Job) (populationSize : Nat)
    (w : ℚ) (g : Nat → ℚ) (n : Nat) (initialSequence : Option (List Nat))
    (hg : ∀ m, 0 ≤ g m ∧ g m < 1)
    (hinit : ∀ s, initialSequence = some s → s.Perm (jobs.map (fun j => j.id)))
    (hps : 0 < populationSize) :
    PopPerm (jobs.map (fun j => j.id))
        (createInitialPopulation jobs populationSize w g n initialSequence).1 ∧
      (createInitialPopulation jobs populationSize w g n initialSequence).1 ≠ [] := by
  cases initialSequence with
  | none =>
    obtain ⟨h1, h2⟩ := createInitialPopulationAux_popPerm jobs
      (jobs.map (fun j => j.id)) w g hg (populationSize - 0) n []
      (fun ind hind => absurd hind (List.not_mem_nil ind))
    have hpc : (createInitialPopulation jobs populationSize w g n Option.none)
        = createInitialPopulationAux jobs (jobs.map (fun j => j.id)) w g
          (populationSize - 0) n [] := rfl
    rw [hpc]
    refine ⟨h1, ?_⟩
    intro hcon
    rw [hcon] at h2
    simp at h2
    omega
  | some s =>
    have hp0 : PopPerm (jobs.map (fun j => j.id)) [mkIndividual jobs w s] := by
      intro ind hind
      rw [List.mem_singleton.mp hind]
      exact hinit s rfl
    obtain ⟨h1, h2⟩ := createInitialPopulationAux_popPerm jobs
      (jobs.map (fun j => j.id)) w g hg (populationSize - 1) n _ hp0
    have hpc : (createInitialPopulation jobs populationSize w g n (some s))
        = createInitialPopulationAux jobs (jobs.map (fun j => j.id)) w g
          (populationSize - 1) n [mkIndividual jobs w s] := rfl
    rw [hpc]
    refine ⟨h1, ?_⟩
    intro hcon
    rw [hcon] at h2
    simp at h2
    omega

theorem gaPopulations_popPerm (jobs : List Job) (cfg : GAConfig)
    (diversityFn : List Individual → ℚ) (g : Nat → ℚ)
    (initialSequence : Option (List Nat))
    (hg : ∀ m, 0 ≤ g m ∧ g m < 1) (hbase : (jobs.map (fun j => j.id)).Nodup)
    (hbne : jobs ≠ []) (hts : 0 < cfg.tournamentSize) (hps : 0 < cfg.populationSize)
    (hinit : ∀ s, initialSequence = some s → s.Perm (jobs.map (fun j => j.id))) :
    ∀ pop ∈ gaPopulations jobs cfg diversityFn g initialSequence,
      ∀ ind ∈ pop, ind.chromosome.Perm (jobs.map (fun j => j.id)) := by
  have hbne' : jobs.map (fun j => j.id) ≠ [] := by
    intro h
    exact hbne (List.map_eq_nil_iff.mp h)
  obtain ⟨h1, h2⟩ := createInitialPopulation_popPerm jobs cfg.populationSize
    cfg.tardinessWeight g 0 initialSequence hg hinit hps
  intro pop hpop
  exact gaRun_popPerm jobs cfg diversityFn g (jobs.map (fun j => j.id)) hg hbase hbne'
    hts cfg.generations 0 _ [] _ h1 h2 pop hpop

/-- C7.  `orderCrossover` maps two permutations of the same duplicate-free id
list to a permutation of that list for every admissible pair of cut indices;
`swapMutation` and `insertMutation` map any list to a permutation of itself
for every pair of in-range positions; and consequently every individual of
every generation of a GA run has a chromosome that is a permutation of the
input job ids. -/
theorem permutation_invariant :
    (∀ (p1 p2 : List Nat) (s e : Nat), p1.Nodup → p2.Perm p1 → s ≤ e →
      e < p1.length → (orderCrossover p1 p2 s e).Perm p1) ∧
    (∀ (l : List Nat) (i j : Nat), i < l.length → j < l.length →
      (swapMutation l i j).Perm l) ∧
    (∀ (l : List Nat) (i j : Nat), i < l.length → j < l.length →
      (insertMutation l i j).Perm l) ∧
    (∀ (jobs : List Job) (cfg : GAConfig) (diversityFn : List Individual → ℚ)
      (g : Nat → ℚ) (initialSequence : Option (List Nat)),
      (∀ m, 0 ≤ g m ∧ g m < 1) → (jobs.map (fun j => j.id)).Nodup → jobs ≠ [] →
      0 < cfg.tournamentSize → 0 < cfg.populationSize →
      (∀ s, initialSequence = some s → s.Perm (jobs.map (fun j => j.id))) →
      ∀ pop ∈ gaPopulations jobs cfg diversityFn g initialSequence,
        ∀ ind ∈ pop, ind.chromosome.Perm (jobs.map (fun j => j.id))) :=
  ⟨fun p1 p2 s e h1 h2 h3 h4 => orderCrossover_perm p1 p2 s e h1 h2 h3 h4,
   fun l i j hi hj => swapMutation_perm l i j hi hj,
   fun l i j hi hj => insertMutation_perm l i j hi hj,
   fun jobs cfg diversityFn g initialSequence hg hbase hbne hts hps hinit =>
     gaPopulations_popPerm jobs cfg diversityFn g initialSequence hg hbase hbne hts
       hps hinit⟩

/-- C7 — witness: the crossover clause applied to two concrete permutations
of `[1, 2, 3]` with cut segment `[1, 1]`. -/
theorem permutation_invariant_witness :
    ([1, 2, 3] : List Nat).Nodup ∧ ([2, 3, 1] : List Nat).Perm [1, 2, 3] ∧
    (1 : Nat) ≤ 1 ∧ 1 < ([1, 2, 3] : List Nat).length ∧
    (orderCrossover [1, 2, 3] [2, 3, 1] 1 1).Perm [1, 2, 3] :=
  ⟨by decide, by decide, by decide, by decide,
   permutation_invariant.1 [1, 2, 3] [2, 3, 1] 1 1 (by decide) (by decide) (by decide)
     (by decide)⟩

/-! ## Theorems: lookup and update helpers for the simulation state -/

theorem kitGet_mem {kits : List SetupKit} {f : Nat} {k : SetupKit}
    (h : kitGet kits f = some k) : k ∈ kits ∧ k.family = f := by
  rw [kitGet] at h
  have hp := List.find?_some h
  exact ⟨List.mem_of_find?_eq_some h, beq_iff_eq.mp hp⟩

theorem jobsMapGet_mem {jobs : List Job} {jobId : Nat} {j : Job}
    (h : jobsMapGet jobs jobId = some j) : j ∈ jobs ∧ j.id = jobId := by
  rw [jobsMapGet] at h
  have hp := List.find?_some h
  exact ⟨List.mem_reverse.mp (List.mem_of_find?_eq_some h), beq_iff_eq.mp hp⟩

theorem kitGet_isSome (kits : List SetupKit) (f : Nat) :
    (kitGet kits f).isSome ↔ f ∈ kits.map (fun k => k.family) := by
  rw [kitGet, List.find?_isSome]
  constructor
  · rintro ⟨k, hk, hkf⟩
    exact List.mem_map.mpr ⟨k, hk, beq_iff_eq.mp hkf⟩
  · intro h
    obtain ⟨k, hk, hkf⟩ := List.mem_map.mp h
    exact ⟨k, hk, beq_iff_eq.mpr hkf⟩

theorem mkSetupKits_fold_mono (jobs : List Job) :
    ∀ acc : List SetupKit, ∀ k ∈ acc,
      k ∈ jobs.foldl
        (fun acc j =>
          if acc.any (fun k => k.family == j.family) then acc
          else acc ++ [{ family := j.family, currentMachine := Option.none,
                         inTransit := false, availableAt := 0 }])
        acc := by
  induction jobs with
  | nil => intro acc k hk; exact hk
  | cons j rest ih =>
    intro acc k hk
    simp only [List.foldl_cons]
    by_cases hany : (acc.any (fun k => k.family == j.family)) = true
    · rw [if_pos hany]; exact ih acc k hk
    · rw [if_neg hany]
      exact ih _ k (List.mem_append.mpr (Or.inl hk))

theorem mkSetupKits_fold (jobs : List Job) :
    ∀ acc : List SetupKit,
      (acc.map (fun k => k.family)).Nodup →
      (∀ k ∈ acc, k.currentMachine = Option.none ∧ k.availableAt = 0) →
      (((jobs.foldl
          (fun acc j =>
            if acc.any (fun k => k.family == j.family) then acc
            else acc ++ [{ family := j.family, currentMachine := Option.none,
                           inTransit := false, availableAt := 0 }])
          acc).map (fun k => k.family)).Nodup ∧
        ∀ k ∈ jobs.foldl
            (fun acc j =>
              if acc.any (fun k => k.family == j.family) then acc
              else acc ++ [{ family := j.family, currentMachine := Option.none,
                             inTransit := false, availableAt := 0 }])
            acc,
          k.currentMachine = Option.none ∧ k.availableAt = 0) := by
  induction jobs with
  | nil => intro acc h1 h2; exact ⟨h1, h2⟩
  | cons j rest ih =>
    intro acc h1 h2
    simp only [List.foldl_cons]
    by_cases hany : (acc.any (fun k => k.family == j.family)) = true
    · rw [if_pos hany]; exact ih acc h1 h2
    · rw [if_neg hany]
      refine ih _ ?_ ?_
      · rw [List.map_append]
        refine List.Nodup.append h1 (List.nodup_singleton _) ?_
        intro x hx hx2
        rw [List.mem_singleton.mp hx2] at hx
        obtain ⟨k, hk, hkf⟩ := List.mem_map.mp hx
        exact hany (List.any_eq_true.mpr ⟨k, hk, beq_iff_eq.mpr hkf⟩)
      · intro k hk
        rcases List.mem_append.mp hk with hk | hk
        · exact h2 k hk
        · rw [List.mem_singleton.mp hk]
          exact ⟨rfl, rfl⟩

theorem mkSetupKits_keys_nodup (jobs : List Job) :
    ((mkSetupKits jobs).map (fun k => k.family)).Nodup :=
  (mkSetupKits_fold jobs [] (by simp) (by simp)).1

theorem mkSetupKits_fresh (jobs : List Job) :
    ∀ k ∈ mkSetupKits jobs, k.currentMachine = Option.none ∧ k.availableAt = 0 :=
  (mkSetupKits_fold jobs [] (by simp) (by simp)).2

theorem mkSetupKits_covers (jobs : List Job) :
    ∀ j ∈ jobs, j.family ∈ (mkSetupKits jobs).map (fun k => k.family) := by
  have haux : ∀ rest : List Job, ∀ acc : List SetupKit, ∀ j ∈ rest,
      ∃ k ∈ rest.foldl
          (fun acc j =>
            if acc.any (fun k => k.family == j.family) then acc
            else acc ++ [{ family := j.family, currentMachine := Option.none,
                           inTransit := false, availableAt := 0 }])
          acc,
        k.family = j.family := by
    intro rest
    induction rest with
    | nil => intro acc j hj; cases hj
    | cons j0 rest ih =>
      intro acc j hj
      simp only [List.foldl_cons]
      rcases List.mem_cons.mp hj with rfl | hj
      · by_cases hany : (acc.any (fun k => k.family == j.family)) = true
        · rw [if_pos hany]
          obtain ⟨k, hk, hkf⟩ := List.any_eq_true.mp hany
          exact ⟨k, mkSetupKits_fold_mono rest acc k hk, beq_iff_eq.mp hkf⟩
        · rw [if_neg hany]
          refine ⟨{ family := j.family, currentMachine := Option.none,
                    inTransit := false, availableAt := 0 },
                  mkSetupKits_fold_mono rest _ _ ?_, rfl⟩
          exact List.mem_append.mpr (Or.inr (List.mem_singleton.mpr rfl))
      · exact ih _ j hj
  intro j hj
  obtain ⟨k, hk, hkf⟩ := haux jobs [] j hj
  exact List.mem_map.mpr ⟨k, hk, hkf⟩

theorem kits_key_unique {kits : List SetupKit}
    (hnd : (kits.map (fun k => k.family)).Nodup) :
    ∀ k1 ∈ kits, ∀ k2 ∈ kits, k1.family = k2.family → k1 = k2 :=
  fun _ h1 _ h2 h => List.inj_on_of_nodup_map hnd h1 h2 h

theorem updateMachineById_mem {ms : List Machine} {mid : Nat} {f : Machine → Machine}
    {m' : Machine} (h : m' ∈ updateMachineById ms mid f) :
    ∃ m ∈ ms, (m.id = mid ∧ m' = f m) ∨ (m.id ≠ mid ∧ m' = m) := by
  obtain ⟨m, hm, he⟩ := List.mem_map.mp h
  by_cases hid : m.id = mid
  · refine ⟨m, hm, Or.inl ⟨hid, ?_⟩⟩
    rw [← he, if_pos (beq_iff_eq.mpr hid)]
  · refine ⟨m, hm, Or.inr ⟨hid, ?_⟩⟩
    rw [← he, if_neg (by simpa using hid)]

theorem updateKitByFamily_mem {kits : List SetupKit} {fam : Nat} {f : SetupKit → SetupKit}
    {k' : SetupKit} (h : k' ∈ updateKitByFamily kits fam f) :
    ∃ k ∈ kits, (k.family = fam ∧ k' = f k) ∨ (k.family ≠ fam ∧ k' = k) := by
  obtain ⟨k, hk, he⟩ := List.mem_map.mp h
  by_cases hf : k.family = fam
  · refine ⟨k, hk, Or.inl ⟨hf, ?_⟩⟩
    rw [← he, if_pos (beq_iff_eq.mpr hf)]
  · refine ⟨k, hk, Or.inr ⟨hf, ?_⟩⟩
    rw [← he, if_neg (by simpa using hf)]

theorem updateKitByFamily_mem_of {kits : List SetupKit} {fam : Nat}
    {f : SetupKit → SetupKit} {k : SetupKit} (h : k ∈ kits) (hf : k.family = fam) :
    f k ∈ updateKitByFamily kits fam f := by
  simp only [updateKitByFamily]
  refine List.mem_map.mpr ⟨k, h, ?_⟩
  show (if (k.family == fam) = true then f k else k) = f k
  rw [if_pos (beq_iff_eq.mpr hf)]

theorem updateKitByFamily_mem_of_ne {kits : List SetupKit} {fam : Nat}
    {f : SetupKit → SetupKit} {k : SetupKit} (h : k ∈ kits) (hf : k.family ≠ fam) :
    k ∈ updateKitByFamily kits fam f := by
  simp only [updateKitByFamily]
  refine List.mem_map.mpr ⟨k, h, ?_⟩
  show (if (k.family == fam) = true then f k else k) = k
  rw [if_neg (by simpa using hf)]

theorem updateMachineById_frame (ms : List Machine) (mid : Nat) (f : Machine → Machine)
    (hf : ∀ m, (f m).id = m.id ∧ (f m).stage = m.stage) :
    (updateMachineById ms mid f).map (fun m => (m.id, m.stage))
      = ms.map (fun m => (m.id, m.stage)) := by
  simp only [updateMachineById, List.map_map]
  refine List.map_congr_left (fun m _ => ?_)
  by_cases hid : (m.id == mid) = true
  · simp only [Function.comp_apply, if_pos hid, (hf m).1, (hf m).2]
  · simp only [Function.comp_apply, if_neg hid]

theorem updateKitByFamily_keys (kits : List SetupKit) (fam : Nat) (f : SetupKit → SetupKit)
    (hf : ∀ k, (f k).family = k.family) :
    (updateKitByFamily kits fam f).map (fun k => k.family)
      = kits.map (fun k => k.family) := by
  simp only [updateKitByFamily, List.map_map]
  refine List.map_congr_left (fun k _ => ?_)
  by_cases hid : (k.family == fam) = true
  · simp only [Function.comp_apply, if_pos hid, hf k]
  · simp only [Function.comp_apply, if_neg hid]

theorem frame_ids_nodup {ms : List Machine}
    (h : ms.map (fun m => (m.id, m.stage)) = machineFrame) :
    (ms.map (fun m => m.id)).Nodup := by
  have h2 : ms.map (fun m => m.id)
      = (ms.map (fun m => (m.id, m.stage))).map Prod.fst := by
    rw [List.map_map]; rfl
  rw [h2, h]
  decide

theorem machines_id_unique {ms : List Machine}
    (h : ms.map (fun m => (m.id, m.stage)) = machineFrame) :
    ∀ m1 ∈ ms, ∀ m2 ∈ ms, m1.id = m2.id → m1 = m2 :=
  fun _ h1 _ h2 he => List.inj_on_of_nodup_map (frame_ids_nodup h) h1 h2 he

theorem frame_transfer {ms ms' : List Machine}
    (h : ms'.map (fun m => (m.id, m.stage)) = ms.map (fun m => (m.id, m.stage))) :
    ∀ m ∈ ms, ∃ m' ∈ ms', m'.id = m.id ∧ m'.stage = m.stage := by
  intro m hm
  have hmem : (m.id, m.stage) ∈ ms'.map (fun m => (m.id, m.stage)) := by
    rw [h]; exact List.mem_map_of_mem _ hm
  obtain ⟨m', hm', he⟩ := List.mem_map.mp hmem
  exact ⟨m', hm', congrArg Prod.fst he, congrArg Prod.snd he⟩

/-! ## Theorems: the effect of one stage-1 assignment -/

theorem assignStage1_machines (state : SimState) (eventQueue : List SimEvent)
    (rest : List Nat) (jobId : Nat) (job : Job) (kit : SetupKit) (bm : Machine)
    (bs : ℤ) :
    ((assignStage1 state eventQueue rest jobId job kit bm bs).1).machines
      = state.machines.map (assignStage1F jobId job kit bm
          (max (max state.currentTime bm.availableAt) kit.availableAt + bs
            + job.t_smd)) := by
  rcases hcm : kit.currentMachine with _ | oldId
  · simp only [assignStage1, hcm, updateMachineById, List.map_map]
    refine List.map_congr_left (fun m _ => ?_)
    by_cases hb : m.id = bm.id
    · simp [assignStage1F, hb, hcm]
    · simp [assignStage1F, hb, hcm]
  · by_cases hne : oldId = bm.id
    · have hcm2 : kit.currentMachine = some bm.id := by rw [hcm, hne]
      have hbne : (oldId != bm.id) = false := by
        simp [hne]
      simp only [assignStage1, hcm, updateMachineById, List.map_map, hbne,
        Bool.false_eq_true, if_false]
      refine List.map_congr_left (fun m _ => ?_)
      by_cases hb : m.id = bm.id
      · simp [assignStage1F, hb, hcm2]
      · have hom : ¬ bm.id = m.id := fun h => hb h.symm
        simp [assignStage1F, hb, hcm2, hom]
    · have hbne : (oldId != bm.id) = true := bne_iff_ne.mpr hne
      simp only [assignStage1, hcm, updateMachineById, List.map_map, hbne, if_true]
      refine List.map_congr_left (fun m _ => ?_)
      by_cases hb : m.id = bm.id
      · have hmo : ¬ m.id = oldId := fun h => hne (by rw [← h, hb])
        have hom : ¬ oldId = m.id := fun h => hmo h.symm
        have hbo : ¬ bm.id = oldId := fun h => hne h.symm
        simp [assignStage1F, hb, hcm, hmo, hom, hbo]
      · by_cases hmo : m.id = oldId
        · simp [assignStage1F, hb, hcm, hne, ← hmo]
        · have hom : ¬ oldId = m.id := fun h => hmo h.symm
          simp [assignStage1F, hb, hcm, hmo, hom]

theorem assignStage1_setupKits (state : SimState) (eventQueue : List SimEvent)
    (rest : List Nat) (jobId : Nat) (job : Job) (kit : SetupKit) (bm : Machine)
    (bs : ℤ) :
    ((assignStage1 state eventQueue rest jobId job kit bm bs).1).setupKits
      = updateKitByFamily state.setupKits job.family
          (fun k => { k with
            currentMachine := some bm.id,
            availableAt := max (max state.currentTime bm.availableAt) kit.availableAt
              + bs + job.t_smd }) := rfl

theorem assignStage1_completedJobs (state : SimState) (eventQueue : List SimEvent)
    (rest : List Nat) (jobId : Nat) (job : Job) (kit : SetupKit) (bm : Machine)
    (bs : ℤ) :
    ((assignStage1 state eventQueue rest jobId job kit bm bs).1).completedJobs
      = state.completedJobs ++
        [{ jobId := jobId, machineId := bm.id, stage := 1,
           startTime := max (max state.currentTime bm.availableAt) kit.availableAt + bs,
           endTime := max (max state.currentTime bm.availableAt) kit.availableAt + bs
             + job.t_smd,
           setupTime := bs,
           setupType := if bs == SETUP_TIME_SMD_MAJOR then SetupType.major
                        else SetupType.minor,
           setupStartTime := some (max (max state.currentTime bm.availableAt)
             kit.availableAt),
           processingTime := job.t_smd, family := job.family, isLate := false,
           tardiness := 0 }] := rfl

theorem assignStage1_currentTime (state : SimState) (eventQueue : List SimEvent)
    (rest : List Nat) (jobId : Nat) (job : Job) (kit : SetupKit) (bm : Machine)
    (bs : ℤ) :
    ((assignStage1 state eventQueue rest jobId job kit bm bs).1).currentTime
      = state.currentTime := rfl

theorem assignStage1_stage1Queue (state : SimState) (eventQueue : List SimEvent)
    (rest : List Nat) (jobId : Nat) (job : Job) (kit : SetupKit) (bm : Machine)
    (bs : ℤ) :
    ((assignStage1 state eventQueue rest jobId job kit bm bs).1).stage1Queue
      = rest := rfl

theorem assignStage1_events (state : SimState) (eventQueue : List SimEvent)
    (rest : List Nat) (jobId : Nat) (job : Job) (kit : SetupKit) (bm : Machine)
    (bs : ℤ) :
    (assignStage1 state eventQueue rest jobId job kit bm bs).2
      = pqPush eventQueue
          { type := EventType.STAGE1_COMPLETE,
            time := max (max state.currentTime bm.availableAt) kit.availableAt + bs
              + job.t_smd,
            jobId := jobId, machineId := bm.id, stage := 1 } := rfl

theorem assignStage1_frame (state : SimState) (eventQueue : List SimEvent)
    (rest : List Nat) (jobId : Nat) (job : Job) (kit : SetupKit) (bm : Machine)
    (bs : ℤ) :
    ((assignStage1 state eventQueue rest jobId job kit bm bs).1).machines.map
        (fun m => (m.id, m.stage))
      = state.machines.map (fun m => (m.id, m.stage)) := by
  rw [assignStage1_machines, List.map_map]
  refine List.map_congr_left (fun m _ => ?_)
  simp only [Function.comp_apply, assignStage1F]
  by_cases h1 : (m.id == bm.id) = true
  · rw [if_pos h1]
  · rw [if_neg h1]
    by_cases h2 : (kit.currentMachine == some m.id
        && kit.currentMachine != some bm.id) = true
    · rw [if_pos h2]
    · rw [if_neg h2]

/-- One stage-1 assignment preserves the run invariant.  The interesting
case is machine-to-kit coherence: a machine that still shows the job's
family mounted after the assignment would have held the kit before, so the
clearing branch would have fired - the assignment keeps every kit on at
most one machine. -/
theorem stateInv_assignStage1 (jobs : List Job) (state : SimState)
    (eventQueue : List SimEvent) (rest : List Nat) (jobId : Nat) (job : Job)
    (kit : SetupKit) (bm : Machine) (bs : ℤ)
    (hJ : JobsOk jobs)
    (hinv : StateInv jobs state eventQueue)
    (hjob : job ∈ jobs)
    (hkit : kit ∈ state.setupKits) (hkf : kit.family = job.family)
    (hbm : bm ∈ state.machines) (hbs1 : bm.stage = 1)
    (hbsv : bs = stage1CandidateSetup job.family bm) :
    StateInv jobs (assignStage1 state eventQueue rest jobId job kit bm bs).1
      (assignStage1 state eventQueue rest jobId job kit bm bs).2 := by
  have hS0 : (0 : ℤ) ≤ max (max state.currentTime bm.availableAt) kit.availableAt :=
    le_trans hinv.nonnegT (le_trans (le_max_left _ _) (le_max_left _ _))
  have hkS : kit.availableAt ≤ max (max state.currentTime bm.availableAt) kit.availableAt :=
    le_max_right _ _
  have hbs0 : (0 : ℤ) ≤ bs := by
    rw [hbsv, stage1CandidateSetup]
    split
    · decide
    · decide
  have ht0 : 0 ≤ job.t_smd := (hJ job hjob).1
  have hknd : (state.setupKits.map (fun k => k.family)).Nodup := by
    rw [hinv.kitsKeys]; exact mkSetupKits_keys_nodup jobs
  refine ⟨?_, ?_, ?_, ?_, ?_, ?_, ?_, ?_, ?_, ?_, ?_, ?_⟩
  · rw [assignStage1_frame]
    exact hinv.frame
  · rw [assignStage1_setupKits, updateKitByFamily_keys]
    · exact hinv.kitsKeys
    · exact fun _ => rfl
  · intro m' hm' f hf
    rw [assignStage1_machines] at hm'
    obtain ⟨m, hm, he⟩ := List.mem_map.mp hm'
    rw [assignStage1_setupKits]
    rw [← he] at hf ⊢
    by_cases hb : (m.id == bm.id) = true
    · simp only [assignStage1F, if_pos hb] at hf ⊢
      have hbid : m.id = bm.id := beq_iff_eq.mp hb
      injection hf with hfeq
      refine ⟨_, updateKitByFamily_mem_of hkit hkf, ?_, ?_⟩
      · show kit.family = f
        rw [hkf, hfeq]
      · show some bm.id = some m.id
        rw [hbid]
    · simp only [assignStage1F, if_neg hb] at hf ⊢
      have hbid : m.id ≠ bm.id := fun h => hb (beq_iff_eq.mpr h)
      by_cases hc : (kit.currentMachine == some m.id
          && kit.currentMachine != some bm.id) = true
      · simp only [if_pos hc] at hf
        exact Option.noConfusion hf
      · simp only [if_neg hc] at hf ⊢
        obtain ⟨k, hkmem, hkfam, hkcm⟩ := hinv.coherent m hm f hf
        by_cases hff : f = job.family
        · exfalso
          have hkkit : k = kit :=
            kits_key_unique hknd k hkmem kit hkit (by rw [hkfam, hff, ← hkf])
          have hcm2 : kit.currentMachine = some m.id := by
            rw [← hkkit]; exact hkcm
          apply hc
          rw [hcm2]
          simp [hbid]
        · have hkne : k.family ≠ job.family := by rw [hkfam]; exact hff
          exact ⟨k, updateKitByFamily_mem_of_ne hkmem hkne, hkfam, hkcm⟩
  · intro k' hk' oid hko
    rw [assignStage1_setupKits] at hk'
    obtain ⟨k, hkmem, hcase⟩ := updateKitByFamily_mem hk'
    have htr := frame_transfer (assignStage1_frame state eventQueue rest jobId job kit bm bs)
    rcases hcase with ⟨hkf2, he2⟩ | ⟨hkf2, he2⟩
    · rw [he2] at hko
      have h2 : some bm.id = some oid := hko
      injection h2 with hoid
      obtain ⟨m', hm', hid, hst⟩ := htr bm hbm
      exact ⟨m', hm', by rw [hst, hbs1], by rw [hid, hoid]⟩
    · rw [he2] at hko
      obtain ⟨m0, hm0, hst1, hid0⟩ := hinv.kitsPoint k hkmem oid hko
      obtain ⟨m', hm', hid, hst⟩ := htr m0 hm0
      exact ⟨m', hm', by rw [hst, hst1], by rw [hid, hid0]⟩
  · intro r hr hr1
    rw [assignStage1_completedJobs] at hr
    rw [assignStage1_setupKits]
    rcases List.mem_append.mp hr with hr | hr
    · obtain ⟨k, hkmem, hkfam, hkb⟩ := hinv.kitBound r hr hr1
      by_cases hkf2 : k.family = job.family
      · have hkkit : k = kit :=
          kits_key_unique hknd k hkmem kit hkit (by rw [hkf2, hkf])
        refine ⟨_, updateKitByFamily_mem_of hkit hkf, ?_, ?_⟩
        · show kit.family = r.family
          rw [hkf, ← hkf2, hkfam]
        · show r.endTime ≤ max (max state.currentTime bm.availableAt) kit.availableAt
            + bs + job.t_smd
          have h1 : r.endTime ≤ kit.availableAt := by rw [← hkkit]; exact hkb
          linarith
      · exact ⟨k, updateKitByFamily_mem_of_ne hkmem hkf2, hkfam, hkb⟩
    · rw [List.mem_singleton.mp hr]
      refine ⟨_, updateKitByFamily_mem_of hkit hkf, ?_, ?_⟩
      · show kit.family = job.family
        exact hkf
      · show max (max state.currentTime bm.availableAt) kit.availableAt + bs + job.t_smd
          ≤ max (max state.currentTime bm.availableAt) kit.availableAt + bs + job.t_smd
        exact le_refl _
  · rw [assignStage1_completedJobs, List.pairwise_append]
    refine ⟨hinv.disjoint1, List.pairwise_singleton _ _, ?_⟩
    intro r1 hr1 r2 hr2 hs1 hs2 hfam
    rw [List.mem_singleton.mp hr2] at hfam ⊢
    obtain ⟨k, hkmem, hkfam, hkb⟩ := hinv.kitBound r1 hr1 hs1
    have hkf2 : k.family = job.family := by
      rw [hkfam]
      exact hfam
    have hkkit : k = kit :=
      kits_key_unique hknd k hkmem kit hkit (by rw [hkf2, hkf])
    have h1 : r1.endTime ≤ kit.availableAt := by rw [← hkkit]; exact hkb
    show r1.endTime ≤ max (max state.currentTime bm.availableAt) kit.availableAt + bs
    linarith
  · rw [assignStage1_currentTime]
    exact hinv.nonnegT
  · intro m' hm'
    rw [assignStage1_machines] at hm'
    obtain ⟨m, hm, he⟩ := List.mem_map.mp hm'
    rw [← he]
    simp only [assignStage1F]
    by_cases hb : (m.id == bm.id) = true
    · rw [if_pos hb]
      show (0 : ℤ) ≤ max (max state.currentTime bm.availableAt) kit.availableAt
        + bs + job.t_smd
      linarith
    · rw [if_neg hb]
      by_cases hc : (kit.currentMachine == some m.id
          && kit.currentMachine != some bm.id) = true
      · rw [if_pos hc]
        show 0 ≤ m.availableAt
        exact hinv.nonnegM m hm
      · rw [if_neg hc]
        exact hinv.nonnegM m hm
  · intro k' hk'
    rw [assignStage1_setupKits] at hk'
    obtain ⟨k, hkmem, hcase⟩ := updateKitByFamily_mem hk'
    rcases hcase with ⟨_, he2⟩ | ⟨_, he2⟩
    · rw [he2]
      show (0 : ℤ) ≤ max (max state.currentTime bm.availableAt) kit.availableAt
        + bs + job.t_smd
      linarith
    · rw [he2]
      exact hinv.nonnegK k hkmem
  · intro r hr
    rw [assignStage1_completedJobs] at hr
    rcases List.mem_append.mp hr with hr | hr
    · exact hinv.nonnegR r hr
    · rw [List.mem_singleton.mp hr]
      show (0 : ℤ) ≤ max (max state.currentTime bm.availableAt) kit.availableAt
        + bs + job.t_smd
      linarith
  · intro e he
    rw [assignStage1_events] at he
    have hperm := pqPush_perm eventQueue
      { type := EventType.STAGE1_COMPLETE,
        time := max (max state.currentTime bm.availableAt) kit.availableAt + bs + job.t_smd,
        jobId := jobId, machineId := bm.id, stage := 1 }
    have he2 := hperm.mem_iff.mp he
    rcases List.mem_cons.mp he2 with rfl | he3
    · show (0 : ℤ) ≤ max (max state.currentTime bm.availableAt) kit.availableAt
        + bs + job.t_smd
      linarith
    · exact hinv.nonnegE e he3
  · intro r hr hr2
    rw [assignStage1_completedJobs] at hr
    rcases List.mem_append.mp hr with hr | hr
    · exact hinv.tard2 r hr hr2
    · rw [List.mem_singleton.mp hr] at hr2
      have h12 : (1 : Nat) = 2 := hr2
      exact absurd h12 (by decide)

/-- The stage-1 assignment loop preserves the run invariant. -/
theorem stateInv_tryAssignStage1Loop (jobs : List Job) (hJ : JobsOk jobs) :
    ∀ (queue : List Nat) (state : SimState) (eventQueue : List SimEvent),
      StateInv jobs state eventQueue →
      StateInv jobs (tryAssignStage1Loop jobs queue state eventQueue).1
        (tryAssignStage1Loop jobs queue state eventQueue).2 := by
  intro queue
  induction queue with
  | nil =>
    intro state eq h
    exact h
  | cons jobId rest ih =>
    intro state eq h
    rw [tryAssignStage1Loop]
    split
    · exact h
    · rename_i job hjg
      split
      · exact h
      · rename_i kit hkg
        split
        · exact h
        · rename_i bm bst bs hfb
          obtain ⟨hjmem, hjid⟩ := jobsMapGet_mem hjg
          obtain ⟨hkmem, hkfam⟩ := kitGet_mem hkg
          obtain ⟨hfs1, hfs2⟩ := findBestStage1_spec state.currentTime kit job.family
            (state.machines.filter (fun m => m.stage == 1))
          obtain ⟨hbmf, hbns, hbsv, hbstv, hmin⟩ := hfs2 bm bst bs hfb
          have hbmem : bm ∈ state.machines := (List.mem_filter.mp hbmf).1
          have hbst1 : bm.stage = 1 := beq_iff_eq.mp (List.mem_filter.mp hbmf).2
          have h1 := stateInv_assignStage1 jobs state eq rest jobId job kit bm bs
            hJ h hjmem hkmem hkfam hbmem hbst1 hbsv
          exact ih _ _ h1

theorem stateInv_tryAssignStage1Jobs (jobs : List Job) (hJ : JobsOk jobs)
    (state : SimState) (eventQueue : List SimEvent)
    (h : StateInv jobs state eventQueue) :
    StateInv jobs (tryAssignStage1Jobs jobs state eventQueue).1
      (tryAssignStage1Jobs jobs state eventQueue).2 :=
  stateInv_tryAssignStage1Loop jobs hJ state.stage1Queue state eventQueue h

/-! ## Theorems: the effect of one stage-2 assignment -/

theorem assignStage2_machines (state : SimState) (eventQueue : List SimEvent)
    (rest : List Nat) (jobId : Nat) (job : Job) (stage1Job : ScheduledJob)
    (bm : Machine) :
    ((assignStage2 state eventQueue rest jobId job stage1Job bm).1).machines
      = updateMachineById state.machines bm.id
          (fun m => { m with
            currentJob := some jobId,
            availableAt := max (max stage1Job.endTime bm.availableAt) state.currentTime
              + SETUP_TIME_AOI + job.t_aoi }) := rfl

theorem assignStage2_setupKits (state : SimState) (eventQueue : List SimEvent)
    (rest : List Nat) (jobId : Nat) (job : Job) (stage1Job : ScheduledJob)
    (bm : Machine) :
    ((assignStage2 state eventQueue rest jobId job stage1Job bm).1).setupKits
      = state.setupKits := rfl

theorem assignStage2_completedJobs (state : SimState) (eventQueue : List SimEvent)
    (rest : List Nat) (jobId : Nat) (job : Job) (stage1Job : ScheduledJob)
    (bm : Machine) :
    ((assignStage2 state eventQueue rest jobId job stage1Job bm).1).completedJobs
      = state.completedJobs ++
        [{ jobId := jobId, machineId := bm.id, stage := 2,
           startTime := max (max stage1Job.endTime bm.availableAt) state.currentTime
             + SETUP_TIME_AOI,
           endTime := max (max stage1Job.endTime bm.availableAt) state.currentTime
             + SETUP_TIME_AOI + job.t_aoi,
           setupTime := SETUP_TIME_AOI, setupType := SetupType.aoi,
           setupStartTime := some (max (max stage1Job.endTime bm.availableAt)
             state.currentTime),
           processingTime := job.t_aoi, family := job.family,
           isLate := decide
             (max 0 (max (max stage1Job.endTime bm.availableAt) state.currentTime
               + SETUP_TIME_AOI + job.t_aoi - job.dueDate) > 0),
           tardiness := max 0 (max (max stage1Job.endTime bm.availableAt)
             state.currentTime + SETUP_TIME_AOI + job.t_aoi - job.dueDate) }] := rfl

theorem assignStage2_currentTime (state : SimState) (eventQueue : List SimEvent)
    (rest : List Nat) (jobId : Nat) (job : Job) (stage1Job : ScheduledJob)
    (bm : Machine) :
    ((assignStage2 state eventQueue rest jobId job stage1Job bm).1).currentTime
      = state.currentTime := rfl

theorem assignStage2_events (state : SimState) (eventQueue : List SimEvent)
    (rest : List Nat) (jobId : Nat) (job : Job) (stage1Job : ScheduledJob)
    (bm : Machine) :
    (assignStage2 state eventQueue rest jobId job stage1Job bm).2
      = pqPush eventQueue
          { type := EventType.SIMULATION_END,
            time := max (max stage1Job.endTime bm.availableAt) state.currentTime
              + SETUP_TIME_AOI + job.t_aoi,
            jobId := jobId, machineId := bm.id, stage := 2 } := rfl

/-- One stage-2 assignment preserves the run invariant: it only touches the
chosen machine's job and availability, the stage-2 queue, the event queue
and the record list, and the new stage-2 record carries the tardiness
formula. -/
theorem stateInv_assignStage2 (jobs : List Job) (state : SimState)
    (eventQueue : List SimEvent) (rest : List Nat) (jobId : Nat) (job : Job)
    (stage1Job : ScheduledJob) (bm : Machine)
    (hJ : JobsOk jobs)
    (hinv : StateInv jobs state eventQueue)
    (hjob : job ∈ jobs)
    (hjg : jobsMapGet jobs jobId = some job) :
    StateInv jobs (assignStage2 state eventQueue rest jobId job stage1Job bm).1
      (assignStage2 state eventQueue rest jobId job stage1Job bm).2 := by
  have hS2 : (0 : ℤ) ≤ max (max stage1Job.endTime bm.availableAt) state.currentTime :=
    le_trans hinv.nonnegT (le_max_right _ _)
  have h25 : (0 : ℤ) ≤ SETUP_TIME_AOI := by decide
  have ht0 : 0 ≤ job.t_aoi := (hJ job hjob).2
  have hfr : ((assignStage2 state eventQueue rest jobId job stage1Job bm).1).machines.map
      (fun m => (m.id, m.stage)) = state.machines.map (fun m => (m.id, m.stage)) := by
    rw [assignStage2_machines]
    exact updateMachineById_frame _ _ _ (fun m => ⟨rfl, rfl⟩)
  refine ⟨?_, ?_, ?_, ?_, ?_, ?_, ?_, ?_, ?_, ?_, ?_, ?_⟩
  · rw [hfr]
    exact hinv.frame
  · rw [assignStage2_setupKits]
    exact hinv.kitsKeys
  · intro m' hm' f hf
    rw [assignStage2_machines] at hm'
    rw [assignStage2_setupKits]
    obtain ⟨m, hm, hcase⟩ := updateMachineById_mem hm'
    rcases hcase with ⟨_, he⟩ | ⟨_, he⟩
    · rw [he] at hf ⊢
      have hf2 : m.currentSetupKit = some f := hf
      obtain ⟨k, hk, hkfam, hkcm⟩ := hinv.coherent m hm f hf2
      exact ⟨k, hk, hkfam, hkcm⟩
    · rw [he] at hf ⊢
      exact hinv.coherent m hm f hf
  · intro k' hk' oid hko
    rw [assignStage2_setupKits] at hk'
    obtain ⟨m0, hm0, hst1, hid0⟩ := hinv.kitsPoint k' hk' oid hko
    obtain ⟨m', hm', hid, hst⟩ := frame_transfer hfr m0 hm0
    exact ⟨m', hm', by rw [hst, hst1], by rw [hid, hid0]⟩
  · intro r hr hr1
    rw [assignStage2_completedJobs] at hr
    rw [assignStage2_setupKits]
    rcases List.mem_append.mp hr with hr | hr
    · exact hinv.kitBound r hr hr1
    · rw [List.mem_singleton.mp hr] at hr1
      have h21 : (2 : Nat) = 1 := hr1
      exact absurd h21 (by decide)
  · rw [assignStage2_completedJobs, List.pairwise_append]
    refine ⟨hinv.disjoint1, List.pairwise_singleton _ _, ?_⟩
    intro r1 hr1 r2 hr2 hs1 hs2 hfam
    rw [List.mem_singleton.mp hr2] at hs2
    have h21 : (2 : Nat) = 1 := hs2
    exact absurd h21 (by decide)
  · rw [assignStage2_currentTime]
    exact hinv.nonnegT
  · intro m' hm'
    rw [assignStage2_machines] at hm'
    obtain ⟨m, hm, hcase⟩ := updateMachineById_mem hm'
    rcases hcase with ⟨_, he⟩ | ⟨_, he⟩
    · rw [he]
      show (0 : ℤ) ≤ max (max stage1Job.endTime bm.availableAt) state.currentTime
        + SETUP_TIME_AOI + job.t_aoi
      linarith
    · rw [he]
      exact hinv.nonnegM m hm
  · intro k' hk'
    rw [assignStage2_setupKits] at hk'
    exact hinv.nonnegK k' hk'
  · intro r hr
    rw [assignStage2_completedJobs] at hr
    rcases List.mem_append.mp hr with hr | hr
    · exact hinv.nonnegR r hr
    · rw [List.mem_singleton.mp hr]
      show (0 : ℤ) ≤ max (max stage1Job.endTime bm.availableAt) state.currentTime
        + SETUP_TIME_AOI + job.t_aoi
      linarith
  · intro e he
    rw [assignStage2_events] at he
    have hperm := pqPush_perm eventQueue
      { type := EventType.SIMULATION_END,
        time := max (max stage1Job.endTime bm.availableAt) state.currentTime
          + SETUP_TIME_AOI + job.t_aoi,
        jobId := jobId, machineId := bm.id, stage := 2 }
    have he2 := hperm.mem_iff.mp he
    rcases List.mem_cons.mp he2 with rfl | he3
    · show (0 : ℤ) ≤ max (max stage1Job.endTime bm.availableAt) state.currentTime
        + SETUP_TIME_AOI + job.t_aoi
      linarith
    · exact hinv.nonnegE e he3
  · intro r hr hr2
    rw [assignStage2_completedJobs] at hr
    rcases List.mem_append.mp hr with hr | hr
    · exact hinv.tard2 r hr hr2
    · rw [List.mem_singleton.mp hr]
      exact ⟨job, hjg, rfl, rfl⟩

/-- The invariant only constrains the event queue through the nonnegative
times of its members, so it transfers to any sub-collection of events. -/
theorem StateInv_shrink {jobs : List Job} {state : SimState}
    {eq1 eq2 : List SimEvent} (h : StateInv jobs state eq1)
    (hsub : ∀ e ∈ eq2, e ∈ eq1) : StateInv jobs state eq2 :=
  ⟨h.frame, h.kitsKeys, h.coherent, h.kitsPoint, h.kitBound, h.disjoint1, h.nonnegT,
   h.nonnegM, h.nonnegK, h.nonnegR, fun e he => h.nonnegE e (hsub e he), h.tard2⟩

/-- The stage-2 assignment loop preserves the run invariant. -/
theorem stateInv_tryAssignStage2Loop (jobs : List Job) (hJ : JobsOk jobs) :
    ∀ (queue : List Nat) (state : SimState) (eventQueue : List SimEvent),
      StateInv jobs state eventQueue →
      StateInv jobs (tryAssignStage2Loop jobs queue state eventQueue).1
        (tryAssignStage2Loop jobs queue state eventQueue).2 := by
  intro queue
  induction queue with
  | nil =>
    intro state eq h
    exact h
  | cons jobId rest ih =>
    intro state eq h
    rw [tryAssignStage2Loop]
    split
    · exact h
    · rename_i job hjg
      split
      · exact h
      · rename_i bm hrm
        split
        · exact h
        · rename_i stage1Job hfind
          obtain ⟨hjmem, hjid⟩ := jobsMapGet_mem hjg
          have h1 := stateInv_assignStage2 jobs state eq rest jobId job stage1Job bm
            hJ h hjmem hjg
          exact ih _ _ h1

theorem stateInv_tryAssignStage2Jobs (jobs : List Job) (hJ : JobsOk jobs)
    (state : SimState) (eventQueue : List SimEvent)
    (h : StateInv jobs state eventQueue) :
    StateInv jobs (tryAssignStage2Jobs jobs state eventQueue).1
      (tryAssignStage2Jobs jobs state eventQueue).2 :=
  stateInv_tryAssignStage2Loop jobs hJ state.stage2Queue state eventQueue h

/-- Advancing the clock to a nonnegative event time, releasing a machine's
current job and appending to the stage-2 queue preserve the run
invariant. -/
theorem stateInv_timeAndClear (jobs : List Job) (state : SimState)
    (eventQueue : List SimEvent) (t : ℤ) (mid : Nat) (q2 : List Nat)
    (hinv : StateInv jobs state eventQueue) (ht : 0 ≤ t) :
    StateInv jobs
      { currentTime := t,
        machines := updateMachineById state.machines mid
          (fun m => { m with currentJob := Option.none }),
        setupKits := state.setupKits,
        stage1Queue := state.stage1Queue,
        stage2Queue := q2,
        completedJobs := state.completedJobs } eventQueue := by
  have hfr : (updateMachineById state.machines mid
        (fun m => { m with currentJob := Option.none })).map (fun m => (m.id, m.stage))
      = state.machines.map (fun m => (m.id, m.stage)) :=
    updateMachineById_frame _ _ _ (fun m => ⟨rfl, rfl⟩)
  refine ⟨hfr.trans hinv.frame, hinv.kitsKeys, ?_, ?_, hinv.kitBound, hinv.disjoint1,
    ht, ?_, hinv.nonnegK, hinv.nonnegR, hinv.nonnegE, hinv.tard2⟩
  · intro m' hm' f hf
    obtain ⟨m, hm, hcase⟩ := updateMachineById_mem hm'
    rcases hcase with ⟨_, he⟩ | ⟨_, he⟩
    · rw [he] at hf ⊢
      have hf2 : m.currentSetupKit = some f := hf
      obtain ⟨k, hk, hkfam, hkcm⟩ := hinv.coherent m hm f hf2
      exact ⟨k, hk, hkfam, hkcm⟩
    · rw [he] at hf ⊢
      exact hinv.coherent m hm f hf
  · intro k' hk' oid hko
    obtain ⟨m0, hm0, hst1, hid0⟩ := hinv.kitsPoint k' hk' oid hko
    obtain ⟨m', hm', hid, hst⟩ := frame_transfer hfr m0 hm0
    exact ⟨m', hm', by rw [hst, hst1], by rw [hid, hid0]⟩
  · intro m' hm'
    obtain ⟨m, hm, hcase⟩ := updateMachineById_mem hm'
    rcases hcase with ⟨_, he⟩ | ⟨_, he⟩
    · rw [he]
      exact hinv.nonnegM m hm
    · rw [he]
      exact hinv.nonnegM m hm

/-- Advancing the clock alone (the event types the simulator ignores)
preserves the run invariant. -/
theorem stateInv_timeOnly (jobs : List Job) (state : SimState)
    (eventQueue : List SimEvent) (t : ℤ)
    (hinv : StateInv jobs state eventQueue) (ht : 0 ≤ t) :
    StateInv jobs { state with currentTime := t } eventQueue :=
  ⟨hinv.frame, hinv.kitsKeys, hinv.coherent, hinv.kitsPoint, hinv.kitBound,
   hinv.disjoint1, ht, hinv.nonnegM, hinv.nonnegK, hinv.nonnegR, hinv.nonnegE,
   hinv.tard2⟩

/-- `processEvent` preserves the run invariant for events with nonnegative
time. -/
theorem stateInv_processEvent (jobs : List Job) (hJ : JobsOk jobs)
    (event : SimEvent) (state : SimState) (eventQueue : List SimEvent)
    (hinv : StateInv jobs state eventQueue) (ht : 0 ≤ event.time) :
    StateInv jobs (processEvent jobs event state eventQueue).1
      (processEvent jobs event state eventQueue).2 := by
  rw [processEvent]
  split
  · refine stateInv_tryAssignStage2Jobs jobs hJ _ _ ?_
    exact stateInv_timeAndClear jobs state eventQueue event.time event.machineId
      (state.stage2Queue ++ [event.jobId]) hinv ht
  · exact stateInv_timeAndClear jobs state eventQueue event.time event.machineId
      state.stage2Queue hinv ht
  · exact stateInv_timeOnly jobs state eventQueue event.time hinv ht

/-- The main event loop preserves the run invariant at every iteration and
hence delivers it for the final state. -/
theorem stateInv_simLoop (jobs : List Job) (hJ : JobsOk jobs) :
    ∀ (fuel : Nat) (state : SimState) (eventQueue : List SimEvent),
      StateInv jobs state eventQueue →
      StateInv jobs (simLoop jobs fuel state eventQueue) [] := by
  intro fuel
  induction fuel with
  | zero =>
    intro state eq h
    exact StateInv_shrink h (fun e he => absurd he (List.not_mem_nil e))
  | succ n ih =>
    intro state eq h
    rw [simLoop]
    split
    · exact StateInv_shrink h (fun e he => absurd he (List.not_mem_nil e))
    · rename_i event hpop
      have hh : eq.head? = some event := hpop
      have hev : event ∈ eq := List.mem_of_mem_head? hh
      have het : 0 ≤ event.time := h.nonnegE event hev
      have htail : StateInv jobs state eq.tail :=
        StateInv_shrink h (fun e he => List.mem_of_mem_tail he)
      have h1 := stateInv_processEvent jobs hJ event state eq.tail htail het
      have h2 := stateInv_tryAssignStage1Jobs jobs hJ _ _ h1
      exact ih _ _ h2

/-- The fresh initial state satisfies the run invariant. -/
theorem stateInv_initState (jobs : List Job) (seq : List Nat) :
    StateInv jobs (initState jobs seq) [] := by
  have hm : ∀ m ∈ initMachines, m.currentSetupKit = Option.none := by decide
  have hma : ∀ m ∈ initMachines, (0 : ℤ) ≤ m.availableAt := by decide
  have hk := mkSetupKits_fresh jobs
  refine ⟨rfl, rfl, ?_, ?_, ?_, List.Pairwise.nil, le_refl 0, hma, ?_, ?_, ?_, ?_⟩
  · intro m hm' f hf
    rw [hm m hm'] at hf
    exact Option.noConfusion hf
  · intro k hk' oid hko
    rw [(hk k hk').1] at hko
    exact Option.noConfusion hko
  · intro r hr
    exact absurd hr (List.not_mem_nil r)
  · intro k hk'
    rw [(hk k hk').2]
  · intro r hr
    exact absurd hr (List.not_mem_nil r)
  · intro e he
    exact absurd he (List.not_mem_nil e)
  · intro r hr
    exact absurd hr (List.not_mem_nil r)

/-- The final state of a whole simulation run satisfies the run invariant. -/
theorem stateInv_runSimulationState (jobs : List Job) (seq : List Nat)
    (hJ : JobsOk jobs) :
    StateInv jobs (runSimulationState jobs seq) [] :=
  stateInv_simLoop jobs hJ maxIterations _ _
    (stateInv_tryAssignStage1Jobs jobs hJ _ _ (stateInv_initState jobs seq))

/-- C1.  Kit exclusivity.  (i) In any state satisfying the run invariant -
the invariant that, per (ii)-(v), holds initially, is preserved by the
stage-1 assignment pass and by event processing, and holds of the final
state - two machines showing the same mounted family are the same machine;
(vi) a stage-1 assignment clears the kit binding of the machine that
previously held the job's kit whenever that machine is not the chosen one;
and (vii) in the produced schedule, stage-1 records of the same family
never overlap: the earlier record ends no later than the later one
starts. -/
theorem kit_exclusivity (jobs : List Job) (seq : List Nat) (hJ : JobsOk jobs) :
    (∀ (state : SimState) (eventQueue : List SimEvent),
      StateInv jobs state eventQueue →
      ∀ m1 ∈ state.machines, ∀ m2 ∈ state.machines, ∀ f : Nat,
        m1.currentSetupKit = some f → m2.currentSetupKit = some f → m1 = m2) ∧
    StateInv jobs (initState jobs seq) [] ∧
    (∀ (state : SimState) (eventQueue : List SimEvent),
      StateInv jobs state eventQueue →
      StateInv jobs (tryAssignStage1Jobs jobs state eventQueue).1
        (tryAssignStage1Jobs jobs state eventQueue).2) ∧
    (∀ (event : SimEvent) (state : SimState) (eventQueue : List SimEvent),
      StateInv jobs state eventQueue → 0 ≤ event.time →
      StateInv jobs (processEvent jobs event state eventQueue).1
        (processEvent jobs event state eventQueue).2) ∧
    StateInv jobs (runSimulationState jobs seq) [] ∧
    (∀ (state : SimState) (eventQueue : List SimEvent) (rest : List Nat)
        (jobId : Nat) (job : Job) (kit : SetupKit) (bm : Machine) (bs : ℤ),
      ∀ m' ∈ ((assignStage1 state eventQueue rest jobId job kit bm bs).1).machines,
        m'.id ≠ bm.id → kit.currentMachine = some m'.id →
          m'.currentSetupKit = Option.none) ∧
    (∀ (i j : Nat) (hi : i < (runSimulation jobs seq).jobs.length)
        (hj : j < (runSimulation jobs seq).jobs.length), i < j →
      ((runSimulation jobs seq).jobs.get ⟨i, hi⟩).stage = 1 →
      ((runSimulation jobs seq).jobs.get ⟨j, hj⟩).stage = 1 →
      ((runSimulation jobs seq).jobs.get ⟨i, hi⟩).family
        = ((runSimulation jobs seq).jobs.get ⟨j, hj⟩).family →
      ((runSimulation jobs seq).jobs.get ⟨i, hi⟩).endTime
        ≤ ((runSimulation jobs seq).jobs.get ⟨j, hj⟩).startTime) := by
  refine ⟨?_, stateInv_initState jobs seq,
    fun state eqq h => stateInv_tryAssignStage1Jobs jobs hJ state eqq h,
    fun event state eqq h ht => stateInv_processEvent jobs hJ event state eqq h ht,
    stateInv_runSimulationState jobs seq hJ, ?_, ?_⟩
  · intro state eqq hinv m1 h1 m2 h2 f hf1 hf2
    obtain ⟨k1, hk1, hk1f, hk1c⟩ := hinv.coherent m1 h1 f hf1
    obtain ⟨k2, hk2, hk2f, hk2c⟩ := hinv.coherent m2 h2 f hf2
    have hknd : (state.setupKits.map (fun k => k.family)).Nodup := by
      rw [hinv.kitsKeys]; exact mkSetupKits_keys_nodup jobs
    have hkk : k1 = k2 := kits_key_unique hknd k1 hk1 k2 hk2 (by rw [hk1f, hk2f])
    have e1 : k2.currentMachine = some m1.id := hkk ▸ hk1c
    rw [hk2c] at e1
    injection e1 with hid
    exact machines_id_unique hinv.frame m1 h1 m2 h2 hid.symm
  · intro state eqq rest jobId job kit bm bs m' hm' hne hcm
    rw [assignStage1_machines] at hm'
    obtain ⟨m, hm, he⟩ := List.mem_map.mp hm'
    rw [← he] at hne hcm ⊢
    by_cases hb : (m.id == bm.id) = true
    · simp only [assignStage1F, if_pos hb] at hne
      exact absurd (beq_iff_eq.mp hb) hne
    · by_cases hc : (kit.currentMachine == some m.id
          && kit.currentMachine != some bm.id) = true
      · simp only [assignStage1F, if_neg hb, if_pos hc]
      · simp only [assignStage1F, if_neg hb, if_neg hc] at hne hcm ⊢
        exfalso
        apply hc
        rw [hcm]
        simp [hne]
  · have hinv := stateInv_runSimulationState jobs seq hJ
    have hd := hinv.disjoint1
    intro i j hi hj hij hs1 hs2 hfam
    have hp := List.pairwise_iff_get.mp hd ⟨i, hi⟩ ⟨j, hj⟩ (Fin.mk_lt_mk.mpr hij)
    exact hp hs1 hs2 hfam

/-- C1 — witness: the single-job fixture satisfies the job well-formedness
hypothesis and the theorem delivers, e.g., the initial-state invariant. -/
theorem kit_exclusivity_witness :
    JobsOk [wJob1] ∧ StateInv [wJob1] (initState [wJob1] [1]) [] :=
  ⟨by decide, (kit_exclusivity [wJob1] [1] (by decide)).2.1⟩

/-! ## Theorems: makespan postcondition (C9) -/

theorem foldrMax_le (l : List ℤ) : ∀ x ∈ l, x ≤ l.foldr max 0 := by
  induction l with
  | nil => intro x hx; cases hx
  | cons a as ih =>
    intro x hx
    rcases List.mem_cons.mp hx with rfl | hx
    · exact le_max_left _ _
    · exact le_trans (ih x hx) (le_max_right _ _)

theorem foldrMax_mem (l : List ℤ) : l.foldr max 0 = 0 ∨ l.foldr max 0 ∈ l := by
  induction l with
  | nil => exact Or.inl rfl
  | cons a as ih =>
    by_cases h : as.foldr max 0 ≤ a
    · right
      rw [List.foldr_cons, max_eq_left h]
      exact List.mem_cons_self a as
    · push_neg at h
      have he : (a :: as).foldr max 0 = as.foldr max 0 := by
        rw [List.foldr_cons, max_eq_right (le_of_lt h)]
      rcases ih with h0 | hmem
      · exact Or.inl (he.trans h0)
      · exact Or.inr (by rw [he]; exact List.mem_cons_of_mem a hmem)

/-- C9.  The returned Schedule's makespan is `Math.max(...endTimes, 0)`:
it equals the fold of `max` with base `0` over the record end times, is an
upper bound of all end times, is `0` when there are no records, and is
attained by some record otherwise (end times are nonnegative for
well-formed jobs); and `runSimulation [] []` returns the normal empty
Schedule with makespan 0 - there is no error value. -/
theorem makespan_postcondition :
    (∀ (jobs : List Job) (seq : List Nat), JobsOk jobs →
      ((runSimulation jobs seq).makespan
          = ((runSimulation jobs seq).jobs.map (fun r => r.endTime)).foldr max 0 ∧
        (∀ r ∈ (runSimulation jobs seq).jobs,
          r.endTime ≤ (runSimulation jobs seq).makespan) ∧
        ((runSimulation jobs seq).jobs = [] → (runSimulation jobs seq).makespan = 0) ∧
        ((runSimulation jobs seq).jobs ≠ [] →
          ∃ r ∈ (runSimulation jobs seq).jobs,
            (runSimulation jobs seq).makespan = r.endTime))) ∧
    runSimulation [] []
      = { jobs := [], makespan := 0, totalTardiness := 0, averageTardiness := 0,
          setupCount := 0, minorSetupCount := 0, majorSetupCount := 0,
          aoiSetupCount := 0, utilizationStage1 := 0, utilizationStage2 := 0 } := by
  constructor
  · intro jobs seq hJ
    have hmeq : (runSimulation jobs seq).makespan
        = ((runSimulation jobs seq).jobs.map (fun r => r.endTime)).foldr max 0 := rfl
    refine ⟨hmeq, ?_, ?_, ?_⟩
    · intro r hr
      rw [hmeq]
      exact foldrMax_le _ _ (List.mem_map_of_mem _ hr)
    · intro hnil
      rw [hmeq, hnil]
      rfl
    · intro hnil
      rcases foldrMax_mem ((runSimulation jobs seq).jobs.map (fun r => r.endTime))
        with h0 | hmem
      · obtain ⟨r0, hr0⟩ := List.exists_mem_of_ne_nil _ hnil
        refine ⟨r0, hr0, ?_⟩
        have hle : r0.endTime
            ≤ ((runSimulation jobs seq).jobs.map (fun r => r.endTime)).foldr max 0 :=
          foldrMax_le _ _ (List.mem_map_of_mem _ hr0)
        have hge : 0 ≤ r0.endTime :=
          (stateInv_runSimulationState jobs seq hJ).nonnegR r0 hr0
        rw [hmeq, h0]
        rw [h0] at hle
        omega
      · obtain ⟨r, hr, hre⟩ := List.mem_map.mp hmem
        exact ⟨r, hr, by rw [hmeq, ← hre]⟩
  · decide

/-- C9 — witness: the upper-bound clause of the theorem applied to the
single-job run, whose hypothesis is checked by evaluation. -/
theorem makespan_postcondition_witness :
    JobsOk [wJob1] ∧
    ∀ r ∈ (runSimulation [wJob1] [1]).jobs,
      r.endTime ≤ (runSimulation [wJob1] [1]).makespan :=
  ⟨by decide, (makespan_postcondition.1 [wJob1] [1] (by decide)).2.1⟩

/-! ## Theorems: unknown ids block the stage-1 queue (C10) -/

theorem assignStage2_stage1Queue (state : SimState) (eventQueue : List SimEvent)
    (rest : List Nat) (jobId : Nat) (job : Job) (stage1Job : ScheduledJob)
    (bm : Machine) :
    ((assignStage2 state eventQueue rest jobId job stage1Job bm).1).stage1Queue
      = state.stage1Queue := rfl

/-- Once the head of the remaining stage-1 queue is an id with no matching
job, the loop stops there: the suffix starting at that id survives. -/
theorem tryAssignStage1Loop_blocked (jobs : List Job) (bad : Nat) (post : List Nat)
    (hbad : jobsMapGet jobs bad = Option.none) :
    ∀ (queue : List Nat) (state : SimState) (eventQueue : List SimEvent),
      state.stage1Queue = queue →
      (∃ mid, queue = mid ++ bad :: post) →
      ∃ mid, (tryAssignStage1Loop jobs queue state eventQueue).1.stage1Queue
        = mid ++ bad :: post := by
  intro queue
  induction queue with
  | nil =>
    intro state eq hsq h
    obtain ⟨mid, hmid⟩ := h
    exact absurd hmid (by simp)
  | cons jobId rest ih =>
    intro state eq hsq h
    obtain ⟨mid, hmid⟩ := h
    rw [tryAssignStage1Loop]
    split
    · exact ⟨mid, by rw [hsq]; exact hmid⟩
    · rename_i job hjg
      split
      · exact ⟨mid, by rw [hsq]; exact hmid⟩
      · rename_i kit hkg
        split
        · exact ⟨mid, by rw [hsq]; exact hmid⟩
        · rename_i bm bst bs hfb
          cases mid with
          | nil =>
            injection hmid with h1 h2
            rw [h1, hbad] at hjg
            exact Option.noConfusion hjg
          | cons x mid2 =>
            injection hmid with h1 h2
            exact ih _ _ (assignStage1_stage1Queue state eq rest jobId job kit bm bs)
              ⟨mid2, h2⟩

theorem tryAssignStage2Loop_stage1Queue (jobs : List Job) :
    ∀ (queue : List Nat) (state : SimState) (eventQueue : List SimEvent),
      (tryAssignStage2Loop jobs queue state eventQueue).1.stage1Queue
        = state.stage1Queue := by
  intro queue
  induction queue with
  | nil => intro state eq; rfl
  | cons jobId rest ih =>
    intro state eq
    rw [tryAssignStage2Loop]
    split
    · rfl
    · rename_i job hjg
      split
      · rfl
      · rename_i bm hrm
        split
        · rfl
        · rename_i stage1Job hfind
          rw [ih]
          exact assignStage2_stage1Queue state eq rest jobId job stage1Job bm

theorem tryAssignStage2Loop_records (jobs : List Job) :
    ∀ (queue : List Nat) (state : SimState) (eventQueue : List SimEvent),
      ∀ r ∈ (tryAssignStage2Loop jobs queue state eventQueue).1.completedJobs,
        r ∈ state.completedJobs ∨ (r.stage = 2 ∧ (jobsMapGet jobs r.jobId).isSome) := by
  intro queue
  induction queue with
  | nil => intro state eq r hr; exact Or.inl hr
  | cons jobId rest ih =>
    intro state eq r hr
    rw [tryAssignStage2Loop] at hr
    rcases hmatch : jobsMapGet jobs jobId with _ | job
    all_goals rw [hmatch] at hr
    · exact Or.inl hr
    · rcases hrm : reduceMinAvail (state.machines.filter (fun m => m.stage == 2))
        with _ | bm
      all_goals rw [hrm] at hr
      · exact Or.inl hr
      · rcases hfind : state.completedJobs.find?
            (fun sj => sj.jobId == jobId && sj.stage == 1) with _ | stage1Job
        all_goals rw [hfind] at hr
        · exact Or.inl hr
        · rcases ih _ _ r hr with hmem | h2
          · rw [assignStage2_completedJobs] at hmem
            rcases List.mem_append.mp hmem with hmem | hmem
            · exact Or.inl hmem
            · rw [List.mem_singleton.mp hmem]
              refine Or.inr ⟨rfl, ?_⟩
              show (jobsMapGet jobs jobId).isSome
              rw [hmatch]
              rfl
          · exact Or.inr h2

theorem processEvent_stage1Queue (jobs : List Job) (event : SimEvent)
    (state : SimState) (eventQueue : List SimEvent) :
    (processEvent jobs event state eventQueue).1.stage1Queue = state.stage1Queue := by
  rw [processEvent]
  split
  · exact tryAssignStage2Loop_stage1Queue jobs _ _ _
  · rfl
  · rfl

theorem processEvent_records (jobs : List Job) (event : SimEvent)
    (state : SimState) (eventQueue : List SimEvent) :
    ∀ r ∈ (processEvent jobs event state eventQueue).1.completedJobs,
      r ∈ state.completedJobs ∨ (r.stage = 2 ∧ (jobsMapGet jobs r.jobId).isSome) := by
  rw [processEvent]
  split
  · intro r hr
    rcases tryAssignStage2Loop_records jobs _ _ eventQueue r hr with hmem | h2
    · exact Or.inl hmem
    · exact Or.inr h2
  · intro r hr
    exact Or.inl hr
  · intro r hr
    exact Or.inl hr

/-- Every record the stage-1 loop adds carries an id with a matching job. -/
theorem recordsOk_tryAssignStage1Loop (jobs : List Job) :
    ∀ (queue : List Nat) (state : SimState) (eventQueue : List SimEvent),
      (∀ r ∈ state.completedJobs, (jobsMapGet jobs r.jobId).isSome) →
      ∀ r ∈ (tryAssignStage1Loop jobs queue state eventQueue).1.completedJobs,
        (jobsMapGet jobs r.jobId).isSome := by
  intro queue
  induction queue with
  | nil => intro state eq h; exact h
  | cons jobId rest ih =>
    intro state eq h
    rw [tryAssignStage1Loop]
    split
    · exact h
    · rename_i job hjg
      split
      · exact h
      · rename_i kit hkg
        split
        · exact h
        · rename_i bm bst bs hfb
          refine ih _ _ ?_
          intro r hr
          rw [assignStage1_completedJobs] at hr
          rcases List.mem_append.mp hr with hr | hr
          · exact h r hr
          · rw [List.mem_singleton.mp hr]
            show (jobsMapGet jobs jobId).isSome
            rw [hjg]
            rfl

/-- Every record in the final state carries an id with a matching job. -/
theorem recordsOk_simLoop (jobs : List Job) :
    ∀ (fuel : Nat) (state : SimState) (eventQueue : List SimEvent),
      (∀ r ∈ state.completedJobs, (jobsMapGet jobs r.jobId).isSome) →
      ∀ r ∈ (simLoop jobs fuel state eventQueue).completedJobs,
        (jobsMapGet jobs r.jobId).isSome := by
  intro fuel
  induction fuel with
  | zero => intro state eq h; exact h
  | succ n ih =>
    intro state eq h
    rw [simLoop]
    split
    · exact h
    · rename_i event hpop
      refine ih _ _ ?_
      refine recordsOk_tryAssignStage1Loop jobs _ _ _ ?_
      intro r hr
      rcases processEvent_records jobs event state eq.tail r hr with hmem | h2
      · exact h r hmem
      · exact h2.2

theorem blocked_simLoop (jobs : List Job) (bad : Nat) (post : List Nat)
    (hbad : jobsMapGet jobs bad = Option.none) :
    ∀ (fuel : Nat) (state : SimState) (eventQueue : List SimEvent),
      (∃ mid, state.stage1Queue = mid ++ bad :: post) →
      ∃ mid, (simLoop jobs fuel state eventQueue).stage1Queue = mid ++ bad :: post := by
  intro fuel
  induction fuel with
  | zero => intro state eq h; exact h
  | succ n ih =>
    intro state eq h
    rw [simLoop]
    split
    · exact h
    · rename_i event hpop
      refine ih _ _ ?_
      obtain ⟨mid, hmid⟩ := h
      refine tryAssignStage1Loop_blocked jobs bad post hbad _ _ _ rfl ?_
      rw [processEvent_stage1Queue]
      exact ⟨mid, hmid⟩

/-- Stage-1 records only carry ids already consumed from the front of the
original sequence, and the remaining stage-1 queue is the matching
suffix. -/
theorem consumed_tryAssignStage1Loop (jobs : List Job) (seq : List Nat) :
    ∀ (queue : List Nat) (state : SimState) (eventQueue : List SimEvent),
      state.stage1Queue = queue →
      (∃ consumed, seq = consumed ++ queue ∧
        ∀ r ∈ state.completedJobs, r.stage = 1 → r.jobId ∈ consumed) →
      ∃ consumed,
        seq = consumed ++ (tryAssignStage1Loop jobs queue state eventQueue).1.stage1Queue ∧
        ∀ r ∈ (tryAssignStage1Loop jobs queue state eventQueue).1.completedJobs,
          r.stage = 1 → r.jobId ∈ consumed := by
  intro queue
  induction queue with
  | nil =>
    intro state eq hsq h
    obtain ⟨c, hc1, hc2⟩ := h
    refine ⟨c, ?_, hc2⟩
    show seq = c ++ state.stage1Queue
    rw [hsq]
    exact hc1
  | cons jobId rest ih =>
    intro state eq hsq h
    obtain ⟨c, hc1, hc2⟩ := h
    rw [tryAssignStage1Loop]
    split
    · exact ⟨c, by rw [hsq]; exact hc1, hc2⟩
    · rename_i job hjg
      split
      · exact ⟨c, by rw [hsq]; exact hc1, hc2⟩
      · rename_i kit hkg
        split
        · exact ⟨c, by rw [hsq]; exact hc1, hc2⟩
        · rename_i bm bst bs hfb
          refine ih _ _ (assignStage1_stage1Queue state eq rest jobId job kit bm bs) ?_
          refine ⟨c ++ [jobId], ?_, ?_⟩
          · rw [hc1, List.append_assoc]
            rfl
          · intro r hr hr1
            rw [assignStage1_completedJobs] at hr
            rcases List.mem_append.mp hr with hr | hr
            · exact List.mem_append.mpr (Or.inl (hc2 r hr hr1))
            · rw [List.mem_singleton.mp hr]
              show jobId ∈ c ++ [jobId]
              exact List.mem_append.mpr (Or.inr (List.mem_singleton.mpr rfl))

theorem consumed_simLoop (jobs : List Job) (seq : List Nat) :
    ∀ (fuel : Nat) (state : SimState) (eventQueue : List SimEvent),
      (∃ consumed, seq = consumed ++ state.stage1Queue ∧
        ∀ r ∈ state.completedJobs, r.stage = 1 → r.jobId ∈ consumed) →
      ∃ consumed, seq = consumed ++ (simLoop jobs fuel state eventQueue).stage1Queue ∧
        ∀ r ∈ (simLoop jobs fuel state eventQueue).completedJobs,
          r.stage = 1 → r.jobId ∈ consumed := by
  intro fuel
  induction fuel with
  | zero => intro state eq h; exact h
  | succ n ih =>
    intro state eq h
    rw [simLoop]
    split
    · exact h
    · rename_i event hpop
      refine ih _ _ ?_
      refine consumed_tryAssignStage1Loop jobs seq _ _ _ rfl ?_
      obtain ⟨c, hc1, hc2⟩ := h
      refine ⟨c, ?_, ?_⟩
      · rw [processEvent_stage1Queue]
        exact hc1
      · intro r hr hr1
        rcases processEvent_records jobs event state eq.tail r hr with hmem | h2
        · exact hc2 r hmem hr1
        · rw [hr1] at h2
          exact absurd h2.1.symm (by decide)

/-- C10 (implicit).  An id with no matching job silently blocks stage 1:
the run still returns a Schedule built from the final state (there is no
throw and the Schedule type carries no error field); the offending id and
the whole queue suffix after it are never removed from the stage-1 queue;
every produced record carries an id with a matching job - in particular
none for the unknown id; and stage-1 records exist only for ids consumed
from the part of the sequence before the unknown id. -/
theorem unknown_id_blocks (jobs : List Job) (pre post : List Nat) (bad : Nat)
    (hbad : jobsMapGet jobs bad = Option.none) :
    runSimulation jobs (pre ++ bad :: post)
      = buildSchedule (runSimulationState jobs (pre ++ bad :: post)) ∧
    (∃ mid, (runSimulationState jobs (pre ++ bad :: post)).stage1Queue
      = mid ++ bad :: post) ∧
    (∀ r ∈ (runSimulation jobs (pre ++ bad :: post)).jobs,
      (jobsMapGet jobs r.jobId).isSome) ∧
    (∀ r ∈ (runSimulation jobs (pre ++ bad :: post)).jobs, r.jobId ≠ bad) ∧
    (∀ r ∈ (runSimulation jobs (pre ++ bad :: post)).jobs, r.stage = 1 →
      r.jobId ∈ pre) := by
  have hstate : runSimulationState jobs (pre ++ bad :: post)
      = simLoop jobs maxIterations
          (tryAssignStage1Jobs jobs (initState jobs (pre ++ bad :: post)) []).1
          (tryAssignStage1Jobs jobs (initState jobs (pre ++ bad :: post)) []).2 := rfl
  have hrec : ∀ r ∈ (runSimulationState jobs (pre ++ bad :: post)).completedJobs,
      (jobsMapGet jobs r.jobId).isSome := by
    rw [hstate]
    refine recordsOk_simLoop jobs maxIterations _ _ ?_
    refine recordsOk_tryAssignStage1Loop jobs _ _ _ ?_
    intro r0 hr0
    exact absurd hr0 (List.not_mem_nil r0)
  have hblock : ∃ mid, (runSimulationState jobs (pre ++ bad :: post)).stage1Queue
      = mid ++ bad :: post := by
    rw [hstate]
    refine blocked_simLoop jobs bad post hbad maxIterations _ _ ?_
    refine tryAssignStage1Loop_blocked jobs bad post hbad _ _ _ rfl ?_
    exact ⟨pre, rfl⟩
  have hcons : ∃ c, (pre ++ bad :: post)
        = c ++ (runSimulationState jobs (pre ++ bad :: post)).stage1Queue ∧
      ∀ r ∈ (runSimulationState jobs (pre ++ bad :: post)).completedJobs,
        r.stage = 1 → r.jobId ∈ c := by
    rw [hstate]
    refine consumed_simLoop jobs (pre ++ bad :: post) maxIterations _ _ ?_
    refine consumed_tryAssignStage1Loop jobs (pre ++ bad :: post) _ _ _ rfl ?_
    exact ⟨[], rfl, fun r hr _ => absurd hr (List.not_mem_nil r)⟩
  refine ⟨rfl, hblock, ?_, ?_, ?_⟩
  · intro r hr
    exact hrec r hr
  · intro r hr hbad2
    have hs := hrec r hr
    rw [hbad2, hbad] at hs
    exact Bool.noConfusion hs
  · intro r hr hr1
    obtain ⟨c, hc1, hc2⟩ := hcons
    obtain ⟨mid, hmid⟩ := hblock
    have hcm : c ++ mid = pre := by
      have h2 : (c ++ mid) ++ (bad :: post) = pre ++ (bad :: post) := by
        rw [List.append_assoc, ← hmid, ← hc1]
      exact List.append_cancel_right h2
    have hin : r.jobId ∈ c := hc2 r hr hr1
    rw [← hcm]
    exact List.mem_append.mpr (Or.inl hin)

/-- C10 — witness: with the single job of id 1 and the sequence
`[1, 99, 2]`, the id 99 has no matching job (checked by evaluation) and the
theorem yields that the final stage-1 queue still ends in `[99, 2]`. -/
theorem unknown_id_blocks_witness :
    jobsMapGet [wJob1] 99 = Option.none ∧
    ∃ mid, (runSimulationState [wJob1] ([1] ++ 99 :: [2])).stage1Queue
      = mid ++ 99 :: [2] :=
  ⟨by decide, (unknown_id_blocks [wJob1] [1] [2] 99 (by decide)).2.1⟩

/-! ## Theorems: no input validation (C8) -/

/-- C8 - corrected.  Neither the engine nor the optimizer rejects invalid
input: `runSimulation` is a total function into `Schedule` (a type with no
error field) that always builds its result from the final simulation
state; the empty job list yields the normal empty schedule; a duplicate id
in the sequence is silently processed twice; and an unknown id is silently
left in the stage-1 queue.  Nothing is rejected before simulation
starts and no structured error is surfaced. -/
theorem invalid_input_no_rejection :
    (∀ (jobs : List Job) (seq : List Nat),
      runSimulation jobs seq = buildSchedule (runSimulationState jobs seq)) ∧
    (runSimulation [] []).jobs = [] ∧
    ((runSimulation [wJob1] [1, 1]).jobs.map (fun r => (r.jobId, r.stage)))
      = [(1, 1), (1, 1), (1, 2), (1, 2)] ∧
    (runSimulationState [wJob1] [1, 99]).stage1Queue = [99] :=
  ⟨fun _ _ => rfl, by decide, by decide, by decide⟩

/-- C8 - counterexample to the claimed rejection: `[1, 1]` is not a
permutation of the job-id list `[1]`, yet the engine silently proceeds and
returns a schedule with four records - the job is scheduled twice at each
stage instead of the input being rejected with a structured error. -/
theorem invalid_input_counterexample :
    ¬ (([1, 1] : List Nat).Perm [wJob1.id]) ∧
    (runSimulation [wJob1] [1, 1]).jobs.length = 4 :=
  ⟨by decide, by decide⟩
